import Mathlib

/-!
Shallow embedding of the can2040 software CAN controller (src/src/can2040.c).

Machine integers are modelled as `Nat` with explicit `% 2^32` where the C
code's `uint32_t` arithmetic can wrap.  Hardware accesses (PIO registers,
DMA) are modelled as entries appended to an event log carried in the
controller state; the single hardware *input* the parser reads
(`pio_rx_check_stall`) is modelled as a boolean field of the state that no
modelled operation changes.
-/

namespace Can2040

def W32 : Nat := 2 ^ 32

/-- CRC step loop of `crcbits` (src/src/can2040.c:322-331): processes the
low `count` bits of `data` MSB first; `uint32_t` wrap is `% W32`. -/
def crcbitsLoop (data : Nat) : Nat → Nat → Nat
  | crc, 0 => crc
  | crc, i + 1 =>
    let bit := (data >>> i) &&& 1
    let crc' := if (((crc >>> 14) &&& 1) ^^^ bit) ≠ 0
      then ((crc <<< 1) ^^^ 0x4599) % W32 else (crc <<< 1) % W32
    crcbitsLoop data crc' i

/-- `crcbits(crc, data, count)` from src/src/can2040.c:322. -/
def crcbits (crc data count : Nat) : Nat := crcbitsLoop data crc count

/-- `struct can2040_bitunstuffer` (declared in can2040.h, used from
src/src/can2040.c:338-398). -/
structure BitUnstuf where
  stuffed_bits : Nat
  count_stuff : Nat
  unstuffed_bits : Nat
  count_unstuff : Nat
  deriving Repr, DecidableEq

/-- `unstuf_add_bits` (src/src/can2040.c:338-344). -/
def unstuf_add_bits (bu : BitUnstuf) (data count : Nat) : BitUnstuf :=
  let mask := (1 <<< count) - 1
  { bu with
    stuffed_bits := ((bu.stuffed_bits <<< count) ||| (data &&& mask)) % W32
    count_stuff := count }

/-- `unstuf_set_count` (src/src/can2040.c:346-351). -/
def unstuf_set_count (bu : BitUnstuf) (count : Nat) : BitUnstuf :=
  { bu with unstuffed_bits := 0, count_unstuff := count }

/-- `unstuf_clear_state` (src/src/can2040.c:353-360). -/
def unstuf_clear_state (bu : BitUnstuf) : BitUnstuf :=
  let sb := bu.stuffed_bits
  let edges := sb ^^^ (sb >>> 1)
  let cs := bu.count_stuff
  let re := edges >>> cs
  if (re &&& 1) = 0 ∧ (re &&& 0xf) ≠ 0 then
    { bu with stuffed_bits := sb ^^^ (1 <<< cs) }
  else bu

/-- The `for (;;)` loop of `unstuf_pull_bits` (src/src/can2040.c:362-398),
structurally recursive on the count of pending raw bits `cs`.  Returns the
C return value together with the final `(unstuffed_bits, count_stuff,
count_unstuff)`. -/
def pullLoop (sb edges : Nat) : Nat → Nat → Nat → Int × Nat × Nat × Nat
  | ub, 0, cu => if cu = 0 then (0, ub, 0, cu) else (1, ub, 0, cu)
  | ub, cs' + 1, cu =>
    if cu = 0 then (0, ub, cs' + 1, cu)
    else if (edges >>> (cs' + 1)) &&& 0xf ≠ 0 then
      pullLoop sb edges (ub ||| (((sb >>> cs') &&& 1) <<< (cu - 1))) cs' (cu - 1)
    else if (edges >>> cs') &&& 0x1f = 0 then
      if (sb >>> cs') &&& 1 = 1 then (-1, ub, cs', cu) else (-2, ub, cs', cu)
    else
      pullLoop sb edges ub cs' cu

/-- `unstuf_pull_bits` (src/src/can2040.c:362-398). -/
def unstuf_pull_bits (bu : BitUnstuf) : Int × BitUnstuf :=
  let edges := bu.stuffed_bits ^^^ (bu.stuffed_bits >>> 1)
  let r := pullLoop bu.stuffed_bits edges bu.unstuffed_bits bu.count_stuff bu.count_unstuff
  (r.1, { bu with unstuffed_bits := r.2.1, count_stuff := r.2.2.1, count_unstuff := r.2.2.2 })

/-- Loop of `bitstuff` (src/src/can2040.c:405-422).  The first argument is
`i + 1` where `i` is the C loop index (`0` encodes a negative `i`, i.e.
loop exit).  After an insertion at `i` the C code does `i -= 3` followed by
the loop's `i--`, so the next index is `i - 4`, i.e. the next first
argument is `i - 3`. -/
def bitstuffLoop : Nat → Nat → Nat → Nat × Nat
  | 0, b, count => (b, count)
  | i + 1, b, count =>
    let edges := b ^^^ (b >>> 1)
    if (edges >>> i) &&& 0xf = 0 then
      let mask := (1 <<< (i + 1)) - 1
      let low := b &&& mask
      let high := ((b &&& ((W32 - 1) ^^^ (mask >>> 1))) <<< 1) % W32
      bitstuffLoop (i - 3) ((high ^^^ low ^^^ (1 <<< i)) % W32) (count + 1)
    else
      bitstuffLoop i b count
  termination_by ip1 _ _ => ip1
  decreasing_by
    · exact Nat.lt_succ_of_le (Nat.sub_le i 3)
    · exact Nat.lt_succ_self i

/-- `bitstuff(pb, num_bits)` (src/src/can2040.c:405-422): returns the
stuffed word and the new bit count. -/
def bitstuff (pb num_bits : Nat) : Nat × Nat :=
  bitstuffLoop num_bits (pb % W32) num_bits

/-- `struct bitstuffer_s` (src/src/can2040.c:424-426).  The output buffer
is the slot's `stuffed_data` array, modelled as a list of 32-bit words. -/
structure BitStuffer where
  prev_stuffed : Nat
  bitpos : Nat
  buf : List Nat
  crc : Nat
  deriving Repr, DecidableEq

/-- `bs_pushraw` (src/src/can2040.c:428-441).  `fb[k] |= x` becomes an
in-place `List.set` with a bitwise or; `uint32_t` wrap is `% W32`. -/
def bs_pushraw (bs : BitStuffer) (data count : Nat) : BitStuffer :=
  let bitpos := bs.bitpos
  let wp := bitpos / 32
  let bitused := bitpos % 32
  let bitavail := 32 - bitused
  let buf :=
    if bitavail ≥ count then
      bs.buf.set wp ((bs.buf.getD wp 0 ||| (data <<< (bitavail - count))) % W32)
    else
      let b0 := bs.buf.set wp ((bs.buf.getD wp 0 ||| (data >>> (count - bitavail))) % W32)
      b0.set (wp + 1) ((b0.getD (wp + 1) 0 ||| (data <<< (32 - (count - bitavail)))) % W32)
  { bs with buf := buf, bitpos := bitpos + count }

/-- `bs_push` (src/src/can2040.c:443-452). -/
def bs_push (bs : BitStuffer) (data count : Nat) : BitStuffer :=
  let data := data &&& ((1 <<< count) - 1)
  let crc := crcbits bs.crc data count
  let stuf := ((bs.prev_stuffed <<< count) ||| data) % W32
  let sc := bitstuff stuf count
  let bs := bs_pushraw { bs with crc := crc } sc.1 sc.2
  { bs with prev_stuffed := sc.1 }

/-- `bs_finalize` (src/src/can2040.c:454-463): pads the last partial word
with recessive bits and returns the word count. -/
def bs_finalize (bs : BitStuffer) : BitStuffer × Nat :=
  let bitpos := bs.bitpos
  let words := (bitpos + 31) / 32
  let extra := words * 32 - bitpos
  if extra ≠ 0 then
    let buf := bs.buf.set (words - 1) ((bs.buf.getD (words - 1) 0 ||| ((1 <<< extra) - 1)) % W32)
    ({ bs with buf := buf }, words)
  else (bs, words)

/-- `struct can2040_msg`: 11-bit id, DLC and 8 payload bytes; the `d1`/`d4`
union is modelled by keeping the bytes and deriving the two 32-bit words. -/
structure Msg where
  addr : Nat
  data_len : Nat
  d1 : List Nat
  deriving Repr, DecidableEq

/-- The `d4[i]` view of the payload union: bytes assembled little-endian. -/
def Msg.d4 (m : Msg) (i : Nat) : Nat :=
  m.d1.getD (4 * i) 0 ||| (m.d1.getD (4 * i + 1) 0 <<< 8)
    ||| (m.d1.getD (4 * i + 2) 0 <<< 16) ||| (m.d1.getD (4 * i + 3) 0 <<< 24)

/-- `struct can2040_transmit`: a queued message with its pre-computed CRC
and stuffed words. -/
structure TxSlot where
  msg : Msg
  crc : Nat
  stuffed_words : Nat
  stuffed_data : List Nat
  deriving Repr, DecidableEq

/-- Modelled from the spec: the capacity of the `tx_queue` array.  The
array's declaration lives in can2040.h, which is not part of the given
sources; §3 of the spec requires a power of two that is at least 4, and 4
is the value used here. -/
def capacity : Nat := 4

def emptyMsg : Msg := ⟨0, 0, [0, 0, 0, 0, 0, 0, 0, 0]⟩

def emptySlot : TxSlot := ⟨emptyMsg, 0, 0, [0, 0, 0, 0, 0]⟩

/-- Parser phase (`MS_START` .. `MS_DISCARD`, src/src/can2040.c:561-563). -/
inductive PState where
  | mStart | mData | mCrc | mAck | mEof | mDiscard
  deriving Repr, DecidableEq

/-- Externally visible actions: PIO/DMA driver calls and user callbacks,
logged newest first. -/
inductive Event where
  | pioTxSend (words : List Nat) (count : Nat)
  | pioTxCancel
  | pioAckInject (crc_bits rx_bit_pos : Nat)
  | pioAckCancel
  | pioSyncEnableIdle
  | pioSyncDisableIdle
  | pioSyncSetup
  | pioSmSetup
  | cbRx (m : Msg)
  | cbTx (m : Msg)
  | cbTxFail (m : Msg)
  | cbError (code : Nat)
  deriving Repr, DecidableEq

/-- `struct can2040`: the fields the protocol engine reads and writes.
`rx_stall` models the value the hardware would return from
`pio_rx_check_stall`. -/
structure Can where
  unstuf : BitUnstuf
  parse_state : PState
  parse_msg : Msg
  parse_crc : Nat
  parse_hdr : Nat
  parse_datapos : Nat
  raw_bit_count : Nat
  tx_queue : List TxSlot
  tx_push_pos : Nat
  tx_pull_pos : Nat
  in_transmit : Bool
  cancel_count : Nat
  events : List Event
  rx_stall : Bool
  deriving Repr, DecidableEq

def log (cd : Can) (e : Event) : Can := { cd with events := e :: cd.events }

/-- `tx_qpos` (src/src/can2040.c:500-504). -/
def tx_qpos (pos : Nat) : Nat := pos % capacity

def getSlot (cd : Can) (pos : Nat) : TxSlot := cd.tx_queue.getD (tx_qpos pos) emptySlot

/-- `report_error` (src/src/can2040.c:470-475). -/
def report_error (cd : Can) (code : Nat) : Can := log cd (.cbError code)

/-- `report_rx_msg` (src/src/can2040.c:477-481). -/
def report_rx_msg (cd : Can) : Can := log cd (.cbRx cd.parse_msg)

/-- `report_tx_msg` (src/src/can2040.c:483-487). -/
def report_tx_msg (cd : Can) (m : Msg) : Can := log cd (.cbTx m)

/-- `report_tx_fail` (src/src/can2040.c:489-493). -/
def report_tx_fail (cd : Can) (m : Msg) : Can := log cd (.cbTxFail m)

/-- `tx_do_schedule` (src/src/can2040.c:506-520). -/
def tx_do_schedule (cd : Can) : Can :=
  if cd.in_transmit = true ∨ cd.tx_push_pos = cd.tx_pull_pos then cd
  else
    let cd :=
      if cd.cancel_count > 32 then
        let p := cd.tx_pull_pos
        let cd := { cd with cancel_count := 0, tx_pull_pos := (p + 1) % W32 }
        report_tx_fail cd (getSlot cd p).msg
      else cd
    let cd := { cd with in_transmit := true }
    let qt := getSlot cd cd.tx_pull_pos
    log cd (.pioTxSend (qt.stuffed_data.take qt.stuffed_words) qt.stuffed_words)

/-- `tx_cancel` (src/src/can2040.c:522-528). -/
def tx_cancel (cd : Can) : Can :=
  log { cd with in_transmit := false, cancel_count := (cd.cancel_count + 1) % W32 }
    .pioTxCancel

/-- `tx_check_self_transmit` (src/src/can2040.c:530-544). -/
def tx_check_self_transmit (cd : Can) : Bool × Can :=
  if cd.in_transmit = false then (false, cd)
  else
    let qt := getSlot cd cd.tx_pull_pos
    let pm := cd.parse_msg
    if qt.crc = cd.parse_crc ∧ qt.msg.addr = pm.addr ∧ qt.msg.data_len = pm.data_len
        ∧ qt.msg.d4 0 = pm.d4 0 ∧ qt.msg.d4 1 = pm.d4 1 then
      (true, cd)
    else (false, tx_cancel cd)

/-- `tx_finalize` (src/src/can2040.c:546-554). -/
def tx_finalize (cd : Can) : Can :=
  let cd := tx_cancel cd
  let cd := { cd with cancel_count := 0 }
  let p := cd.tx_pull_pos
  let cd := { cd with tx_pull_pos := (p + 1) % W32 }
  report_tx_msg cd (getSlot cd p).msg

/-- `data_state_go_discard` (src/src/can2040.c:565-572). -/
def data_state_go_discard (cd : Can) : Can :=
  let cd := { cd with parse_state := .mDiscard, unstuf := unstuf_set_count cd.unstuf 8 }
  let cd := tx_cancel cd
  log cd .pioSyncEnableIdle

/-- `data_state_go_error` (src/src/can2040.c:574-578). -/
def data_state_go_error (cd : Can) : Can := data_state_go_discard cd

/-- `data_state_go_crc` (src/src/can2040.c:612-631). -/
def data_state_go_crc (cd : Can) : Can :=
  let cd := { cd with parse_state := .mCrc, unstuf := unstuf_set_count cd.unstuf 15,
                      parse_crc := cd.parse_crc &&& 0x7fff }
  let r := tx_check_self_transmit cd
  if r.1 = true then r.2
  else
    let cd := r.2
    let cs := cd.unstuf.count_stuff
    let last := (((cd.unstuf.stuffed_bits >>> cs) <<< 15) ||| cd.parse_crc) % W32
    let sc := bitstuff last (15 + 1)
    let count := sc.2 - 1
    let last := ((sc.1 <<< 1) ||| 1) % W32
    let pos := (cd.raw_bit_count + W32 - cs + W32 - 1) % W32
    log cd (.pioAckInject last ((pos + count + 1) % W32))

/-- `data_state_go_idle` (src/src/can2040.c:580-610). -/
def data_state_go_idle (cd : Can) : Can :=
  if cd.parse_state = .mStart then
    if cd.unstuf.count_stuff = 0 ∧ cd.unstuf.stuffed_bits = 0xffffffff then
      let cd := log cd .pioSyncSetup
      let cd := { cd with unstuf := { cd.unstuf with stuffed_bits := 0 } }
      data_state_go_discard cd
    else
      { cd with unstuf := unstuf_set_count cd.unstuf 18 }
  else
    let cd := log cd .pioSyncDisableIdle
    let cd :=
      if cd.parse_state = .mEof then
        let ub := cd.unstuf.unstuffed_bits
        let cu := cd.unstuf.count_unstuff
        if (ub >>> cu) + 1 = 1 <<< (6 - cu) then
          let r := tx_check_self_transmit cd
          if r.1 = true then tx_finalize r.2 else report_rx_msg r.2
        else cd
      else cd
    let cd := log cd .pioAckCancel
    let cd := tx_do_schedule cd
    { cd with parse_state := .mStart, unstuf := unstuf_set_count cd.unstuf 18 }

/-- `data_state_update_start` (src/src/can2040.c:633-655). -/
def data_state_update_start (cd : Can) (data : Nat) : Can :=
  if data &&& ((1 <<< 18) ||| (7 <<< 4)) ≠ 0 then
    data_state_go_discard cd
  else
    let rdlc := data &&& 0xf
    let dlc := if rdlc > 8 then 8 else rdlc
    let cd := { cd with
      parse_hdr := data
      parse_crc := crcbits 0 data 18
      parse_msg := { addr := (data >>> 7) &&& 0x7ff, data_len := dlc,
                     d1 := [0, 0, 0, 0, 0, 0, 0, 0] }
      parse_datapos := 0 }
    let cd :=
      if 0 ≥ dlc then data_state_go_crc cd
      else { cd with parse_state := .mData, unstuf := unstuf_set_count cd.unstuf 8 }
    log cd .pioSyncEnableIdle

/-- `data_state_update_data` (src/src/can2040.c:657-667). -/
def data_state_update_data (cd : Can) (data : Nat) : Can :=
  let cd := { cd with
    parse_crc := crcbits cd.parse_crc data 8
    parse_msg := { cd.parse_msg with d1 := cd.parse_msg.d1.set cd.parse_datapos data }
    parse_datapos := cd.parse_datapos + 1 }
  if cd.parse_datapos ≥ cd.parse_msg.data_len then data_state_go_crc cd
  else { cd with unstuf := unstuf_set_count cd.unstuf 8 }

/-- `data_state_update_crc` (src/src/can2040.c:669-681). -/
def data_state_update_crc (cd : Can) (data : Nat) : Can :=
  if cd.parse_crc ≠ data then
    data_state_go_discard (log cd .pioAckCancel)
  else
    { cd with parse_state := .mAck,
              unstuf := unstuf_set_count (unstuf_clear_state cd.unstuf) 2 }

/-- `data_state_update_ack` (src/src/can2040.c:683-699). -/
def data_state_update_ack (cd : Can) (data : Nat) : Can :=
  let cd := log cd .pioAckCancel
  if data ≠ 0x02 then
    let cd := data_state_go_discard cd
    if cd.rx_stall = true then report_error (log cd .pioSmSetup) 0 else cd
  else
    { cd with parse_state := .mEof, unstuf := unstuf_set_count cd.unstuf 6 }

/-- `data_state_update_eof` (src/src/can2040.c:701-706). -/
def data_state_update_eof (cd : Can) (_data : Nat) : Can := data_state_go_discard cd

/-- `data_state_update_discard` (src/src/can2040.c:708-712). -/
def data_state_update_discard (cd : Can) (_data : Nat) : Can := data_state_go_discard cd

/-- `data_state_update` (src/src/can2040.c:714-725). -/
def data_state_update (cd : Can) (data : Nat) : Can :=
  match cd.parse_state with
  | .mStart => data_state_update_start cd data
  | .mData => data_state_update_data cd data
  | .mCrc => data_state_update_crc cd data
  | .mAck => data_state_update_ack cd data
  | .mEof => data_state_update_eof cd data
  | .mDiscard => data_state_update_discard cd data

/-- The `for (;;)` pull loop of `process_rx` (src/src/can2040.c:739-756),
with explicit fuel; `none` means the fuel ran out (the C loop always
terminates, which the theorems below establish where they need it). -/
def rxLoop : Nat → Can → Option Can
  | 0, _ => none
  | fuel + 1, cd =>
    let r := unstuf_pull_bits cd.unstuf
    let cd := { cd with unstuf := r.2 }
    if r.1 = 0 then rxLoop fuel (data_state_update cd cd.unstuf.unstuffed_bits)
    else if r.1 > 0 then some cd
    else if r.1 = -1 then rxLoop fuel (data_state_go_idle cd)
    else rxLoop fuel (data_state_go_error cd)

/-- `process_rx` (src/src/can2040.c:732-757). -/
def process_rx (cd : Can) (rx_byte : Nat) : Option Can :=
  let cd := { cd with unstuf := unstuf_add_bits cd.unstuf rx_byte 8,
                      raw_bit_count := (cd.raw_bit_count + 8) % W32 }
  rxLoop 64 cd

/-- `can2040_check_transmit` (src/src/can2040.c:817-824). -/
def can2040_check_transmit (cd : Can) : Bool :=
  (cd.tx_push_pos + W32 - cd.tx_pull_pos) % W32 < capacity

/-- The encoding block of `can2040_transmit` (src/src/can2040.c:844-855):
builds the queue slot for a sanitized message. -/
def encodeSlot (addr len : Nat) (d1 : List Nat) : TxSlot :=
  let bs : BitStuffer := ⟨1, 0, [0, 0, 0, 0, 0], 0⟩
  let hdr := (addr <<< 7) ||| len
  let bs := bs_push bs hdr 19
  let bs := (List.range len).foldl (fun b i => bs_push b (d1.getD i 0) 8) bs
  let crc := bs.crc &&& 0x7fff
  let bs := bs_push bs crc 15
  let bs := bs_pushraw bs 1 1
  let fin := bs_finalize bs
  { msg := ⟨addr, len, d1⟩, crc := crc, stuffed_words := fin.2, stuffed_data := fin.1.buf }

/-- The store-and-submit block of `can2040_transmit`
(src/src/can2040.c:836-867): sanitize the message, encode it into the next
slot, publish `push + 1` and kick the scheduler when the parser is idle. -/
def can2040_transmit_store (cd : Can) (msg : Msg) : Can :=
  let addr := msg.addr &&& 0x7ff
  let rl := msg.data_len
  let len := if rl > 8 then 8 else rl
  let d1 := (msg.d1.take len) ++ List.replicate (8 - len) 0
  let slot := encodeSlot addr len d1
  let cd := { cd with tx_queue := cd.tx_queue.set (tx_qpos cd.tx_push_pos) slot }
  let cd := { cd with tx_push_pos := (cd.tx_push_pos + 1) % W32 }
  if cd.parse_state = .mStart then tx_do_schedule cd else cd

/-- `can2040_transmit` (src/src/can2040.c:826-868). -/
def can2040_transmit (cd : Can) (msg : Msg) : Int × Can :=
  if (cd.tx_push_pos + W32 - cd.tx_pull_pos) % W32 ≥ capacity then (-1, cd)
  else (0, can2040_transmit_store cd msg)

/-- The state after `can2040_setup` and `can2040_start`: everything zeroed
(src/src/can2040.c:876-885) followed by `data_state_go_discard`
(src/src/can2040.c:893-902); the PIO/DMA configuration itself is outside
the model. -/
def startState : Can :=
  data_state_go_discard
    { unstuf := ⟨0, 0, 0, 0⟩
      parse_state := .mStart
      parse_msg := emptyMsg
      parse_crc := 0
      parse_hdr := 0
      parse_datapos := 0
      raw_bit_count := 0
      tx_queue := [emptySlot, emptySlot, emptySlot, emptySlot]
      tx_push_pos := 0
      tx_pull_pos := 0
      in_transmit := false
      cancel_count := 0
      events := []
      rx_stall := false }

/-- An interaction with the controller: a foreground `can2040_transmit`
call or one received byte delivered by the DMA irq (`process_rx`). -/
inductive Step where
  | tx (m : Msg)
  | rx (b : Nat)
  deriving Repr, DecidableEq

def runStep (cd : Can) : Step → Option Can
  | .tx m => some (can2040_transmit cd m).2
  | .rx b => process_rx cd b

/-- Run a sequence of interactions from a state (`none` if a `process_rx`
pull loop would exceed its fuel, which never happens below). -/
def runSteps (cd : Can) (l : List Step) : Option Can := l.foldlM runStep cd

/-- The number of queued-but-unconsumed transmit slots,
`tx_push_pos - tx_pull_pos` in unsigned 32-bit arithmetic. -/
def pending (cd : Can) : Nat := (cd.tx_push_pos + W32 - cd.tx_pull_pos) % W32

/-- The stopping condition of `unstuf_pull_bits` at cursor `k`: no edge
among the five bits preceding the cursor and none between them and the
cursor bit, i.e. six consecutive equal raw bits. -/
def sixAt (edges k : Nat) : Prop :=
  (edges >>> (k + 1)) &&& 0xf = 0 ∧ (edges >>> k) &&& 0x1f = 0

instance (edges k : Nat) : Decidable (sixAt edges k) := by
  unfold sixAt; infer_instance

/-- Recognizer for `pio_tx_send` events. -/
def Event.isTxSend : Event → Bool
  | .pioTxSend _ _ => true
  | _ => false

/-- Recognizer for TX-fail callback events. -/
def Event.isTxFail : Event → Bool
  | .cbTxFail _ => true
  | _ => false

/-! ## The pull loop of `unstuf_pull_bits` -/

theorem pullLoop_ret (sb edges : Nat) :
    ∀ cs ub cu, (pullLoop sb edges ub cs cu).1 = 0 ∨ (pullLoop sb edges ub cs cu).1 = 1
      ∨ (pullLoop sb edges ub cs cu).1 = -1 ∨ (pullLoop sb edges ub cs cu).1 = -2 := by
  intro cs
  induction cs with
  | zero =>
    intro ub cu
    rw [pullLoop]
    split <;> simp
  | succ k ih =>
    intro ub cu
    rw [pullLoop]
    by_cases hcu : cu = 0
    · simp [hcu]
    · simp only [if_neg hcu]
      by_cases h1 : (edges >>> (k + 1)) &&& 0xf ≠ 0
      · simpa [h1] using ih _ _
      · simp only [h1, if_false, if_neg h1]
        by_cases h2 : (edges >>> k) &&& 0x1f = 0
        · simp only [h2, if_true, if_pos h2]
          split <;> simp
        · simpa [h2] using ih _ _

theorem pullLoop_cs_le (sb edges : Nat) :
    ∀ cs ub cu, (pullLoop sb edges ub cs cu).2.2.1 ≤ cs := by
  intro cs
  induction cs with
  | zero =>
    intro ub cu
    rw [pullLoop]
    split <;> simp
  | succ k ih =>
    intro ub cu
    rw [pullLoop]
    by_cases hcu : cu = 0
    · simp [hcu]
    · simp only [if_neg hcu]
      by_cases h1 : (edges >>> (k + 1)) &&& 0xf ≠ 0
      · simp only [h1, if_true, if_pos h1]
        exact le_trans (ih _ _) (Nat.le_succ k)
      · simp only [h1, if_false, if_neg h1]
        by_cases h2 : (edges >>> k) &&& 0x1f = 0
        · simp only [h2, if_true, if_pos h2]
          split <;> simp
        · simp only [h2, if_false, if_neg h2]
          exact le_trans (ih _ _) (Nat.le_succ k)

theorem pullLoop_spec (sb edges : Nat) : ∀ cs ub cu,
    ((pullLoop sb edges ub cs cu).1 = 0 ↔ (pullLoop sb edges ub cs cu).2.2.2 = 0) ∧
    ((pullLoop sb edges ub cs cu).1 = 1 ↔ (pullLoop sb edges ub cs cu).2.2.2 ≠ 0
      ∧ (pullLoop sb edges ub cs cu).2.2.1 = 0
      ∧ ¬((pullLoop sb edges ub cs cu).2.2.1 < cs
           ∧ sixAt edges (pullLoop sb edges ub cs cu).2.2.1)) ∧
    ((pullLoop sb edges ub cs cu).1 = -1 ↔ (pullLoop sb edges ub cs cu).2.2.2 ≠ 0
      ∧ (pullLoop sb edges ub cs cu).2.2.1 < cs
      ∧ sixAt edges (pullLoop sb edges ub cs cu).2.2.1
      ∧ (sb >>> (pullLoop sb edges ub cs cu).2.2.1) &&& 1 = 1) ∧
    ((pullLoop sb edges ub cs cu).1 = -2 ↔ (pullLoop sb edges ub cs cu).2.2.2 ≠ 0
      ∧ (pullLoop sb edges ub cs cu).2.2.1 < cs
      ∧ sixAt edges (pullLoop sb edges ub cs cu).2.2.1
      ∧ (sb >>> (pullLoop sb edges ub cs cu).2.2.1) &&& 1 ≠ 1) := by
  intro cs
  induction cs with
  | zero =>
    intro ub cu
    rw [pullLoop]
    by_cases hcu : cu = 0 <;> simp [hcu]
  | succ k ih =>
    intro ub cu
    rw [pullLoop]
    by_cases hcu : cu = 0
    · simp [hcu]
    · simp only [if_neg hcu]
      by_cases h1 : (edges >>> (k + 1)) &&& 0xf ≠ 0
      · -- normal data bit: recursion at k
        simp only [h1, if_true, if_pos h1]
        obtain ⟨i0, i1, i2, i3⟩ :=
          ih (ub ||| (((sb >>> k) &&& 1) <<< (cu - 1))) (cu - 1)
        have hle := pullLoop_cs_le sb edges k (ub ||| (((sb >>> k) &&& 1) <<< (cu - 1))) (cu - 1)
        have hret := pullLoop_ret sb edges k (ub ||| (((sb >>> k) &&& 1) <<< (cu - 1))) (cu - 1)
        have hnot0 : ¬ sixAt edges 0 ∨ 0 < k := by
          rcases Nat.eq_zero_or_pos k with hk | hk
          · subst hk
            exact Or.inl fun hsix => h1 hsix.1
          · exact Or.inr hk
        refine ⟨i0, ?_, ?_, ?_⟩
        · constructor
          · intro hr
            obtain ⟨a, b, c⟩ := i1.mp hr
            refine ⟨a, b, ?_⟩
            rintro ⟨-, hsix⟩
            rcases hnot0 with hn | hk
            · rw [b] at hsix; exact hn hsix
            · exact c ⟨by omega, hsix⟩
          · rintro ⟨a, b, c⟩
            refine i1.mpr ⟨a, b, ?_⟩
            rintro ⟨hlt, hsix⟩
            exact c ⟨by omega, hsix⟩
        · constructor
          · intro hr
            obtain ⟨a, b, c, d⟩ := i2.mp hr
            exact ⟨a, by omega, c, d⟩
          · rintro ⟨a, b, c, d⟩
            by_cases hk : (pullLoop sb edges (ub ||| (((sb >>> k) &&& 1) <<< (cu - 1))) k (cu - 1)).2.2.1 < k
            · exact i2.mpr ⟨a, hk, c, d⟩
            · rcases hret with h | h | h | h
              · exact absurd (i0.mp h) a
              · obtain ⟨-, hz, -⟩ := i1.mp h
                rcases hnot0 with hn | hpos
                · rw [hz] at c
                  exact absurd c hn
                · omega
              · exact h
              · obtain ⟨-, hlt, -, -⟩ := i3.mp h
                omega
        · constructor
          · intro hr
            obtain ⟨a, b, c, d⟩ := i3.mp hr
            exact ⟨a, by omega, c, d⟩
          · rintro ⟨a, b, c, d⟩
            by_cases hk : (pullLoop sb edges (ub ||| (((sb >>> k) &&& 1) <<< (cu - 1))) k (cu - 1)).2.2.1 < k
            · exact i3.mpr ⟨a, hk, c, d⟩
            · rcases hret with h | h | h | h
              · exact absurd (i0.mp h) a
              · obtain ⟨-, hz, -⟩ := i1.mp h
                rcases hnot0 with hn | hpos
                · rw [hz] at c
                  exact absurd c hn
                · omega
              · obtain ⟨-, hlt, -, -⟩ := i2.mp h
                omega
              · exact h
      · simp only [h1, if_false, if_neg h1]
        by_cases h2 : (edges >>> k) &&& 0x1f = 0
        · -- six equal bits at cursor k
          simp only [h2, if_true, if_pos h2]
          have hsixk : sixAt edges k := ⟨not_ne_iff.mp h1, h2⟩
          simp only [Nat.and_one_is_mod]
          by_cases h3 : (sb >>> k) % 2 = 1 <;>
            simp [h3, hcu, hsixk, Nat.lt_succ_self]
        · -- stuffed bit: silently consumed, recursion at k
          simp only [h2, if_false, if_neg h2]
          obtain ⟨i0, i1, i2, i3⟩ := ih ub cu
          have hle := pullLoop_cs_le sb edges k ub cu
          have hret := pullLoop_ret sb edges k ub cu
          have hnot0 : ¬ sixAt edges 0 ∨ 0 < k := by
            rcases Nat.eq_zero_or_pos k with hk | hk
            · subst hk
              exact Or.inl fun hsix => h2 hsix.2
            · exact Or.inr hk
          refine ⟨i0, ?_, ?_, ?_⟩
          · constructor
            · intro hr
              obtain ⟨a, b, c⟩ := i1.mp hr
              refine ⟨a, b, ?_⟩
              rintro ⟨-, hsix⟩
              rcases hnot0 with hn | hk
              · rw [b] at hsix; exact hn hsix
              · exact c ⟨by omega, hsix⟩
            · rintro ⟨a, b, c⟩
              refine i1.mpr ⟨a, b, ?_⟩
              rintro ⟨hlt, hsix⟩
              exact c ⟨by omega, hsix⟩
          · constructor
            · intro hr
              obtain ⟨a, b, c, d⟩ := i2.mp hr
              exact ⟨a, by omega, c, d⟩
            · rintro ⟨a, b, c, d⟩
              by_cases hk : (pullLoop sb edges ub k cu).2.2.1 < k
              · exact i2.mpr ⟨a, hk, c, d⟩
              · rcases hret with h | h | h | h
                · exact absurd (i0.mp h) a
                · obtain ⟨-, hz, -⟩ := i1.mp h
                  rcases hnot0 with hn | hpos
                  · rw [hz] at c
                    exact absurd c hn
                  · omega
                · exact h
                · obtain ⟨-, hlt, -, -⟩ := i3.mp h
                  omega
          · constructor
            · intro hr
              obtain ⟨a, b, c, d⟩ := i3.mp hr
              exact ⟨a, by omega, c, d⟩
            · rintro ⟨a, b, c, d⟩
              by_cases hk : (pullLoop sb edges ub k cu).2.2.1 < k
              · exact i3.mpr ⟨a, hk, c, d⟩
              · rcases hret with h | h | h | h
                · exact absurd (i0.mp h) a
                · obtain ⟨-, hz, -⟩ := i1.mp h
                  rcases hnot0 with hn | hpos
                  · rw [hz] at c
                    exact absurd c hn
                  · omega
                · obtain ⟨-, hlt, -, -⟩ := i2.mp h
                  omega
                · exact h

/-- One loop iteration on a raw bit that follows exactly five equal bits
(five-equal neighborhood above the cursor, but an edge within the six-bit
window): the bit is consumed without touching `unstuffed_bits` or
`count_unstuff`. -/
theorem pullLoop_skip (sb edges ub cs' cu : Nat) (hcu : cu ≠ 0)
    (h1 : (edges >>> (cs' + 1)) &&& 0xf = 0) (h2 : (edges >>> cs') &&& 0x1f ≠ 0) :
    pullLoop sb edges ub (cs' + 1) cu = pullLoop sb edges ub cs' cu := by
  rw [pullLoop]
  simp [hcu, h1, h2]

/-- C8: `unstuf_pull_bits` returns 0 exactly when the requested field is
complete (`count_unstuff` left 0); returns 1 exactly when the raw window
ran out first (`count_stuff` left 0 and no six-equal stop); returns −1
exactly when it stopped on six consecutive equal high bits at the cursor
and −2 exactly when those bits are low; and a raw bit following exactly
five equal bits is consumed without being appended to the field. -/
theorem c8_unstuf_pull_bits_spec (bu : BitUnstuf) :
    (let edges := bu.stuffed_bits ^^^ (bu.stuffed_bits >>> 1)
     let r := unstuf_pull_bits bu
     (r.1 = 0 ↔ r.2.count_unstuff = 0) ∧
     (r.1 = 1 ↔ r.2.count_unstuff ≠ 0 ∧ r.2.count_stuff = 0
        ∧ ¬(r.2.count_stuff < bu.count_stuff ∧ sixAt edges r.2.count_stuff)) ∧
     (r.1 = -1 ↔ r.2.count_unstuff ≠ 0 ∧ r.2.count_stuff < bu.count_stuff
        ∧ sixAt edges r.2.count_stuff
        ∧ (bu.stuffed_bits >>> r.2.count_stuff) &&& 1 = 1) ∧
     (r.1 = -2 ↔ r.2.count_unstuff ≠ 0 ∧ r.2.count_stuff < bu.count_stuff
        ∧ sixAt edges r.2.count_stuff
        ∧ (bu.stuffed_bits >>> r.2.count_stuff) &&& 1 ≠ 1) ∧
     (r.2.stuffed_bits = bu.stuffed_bits)) ∧
    (∀ ub cs' cu, cu ≠ 0 →
      ((bu.stuffed_bits ^^^ (bu.stuffed_bits >>> 1)) >>> (cs' + 1)) &&& 0xf = 0 →
      ((bu.stuffed_bits ^^^ (bu.stuffed_bits >>> 1)) >>> cs') &&& 0x1f ≠ 0 →
      pullLoop bu.stuffed_bits (bu.stuffed_bits ^^^ (bu.stuffed_bits >>> 1)) ub (cs' + 1) cu
        = pullLoop bu.stuffed_bits (bu.stuffed_bits ^^^ (bu.stuffed_bits >>> 1)) ub cs' cu) := by
  constructor
  · obtain ⟨i0, i1, i2, i3⟩ := pullLoop_spec bu.stuffed_bits
      (bu.stuffed_bits ^^^ (bu.stuffed_bits >>> 1)) bu.count_stuff
      bu.unstuffed_bits bu.count_unstuff
    exact ⟨i0, i1, i2, i3, rfl⟩
  · intro ub cs' cu hcu h1 h2
    exact pullLoop_skip _ _ ub cs' cu hcu h1 h2

theorem pullLoop_pos (sb edges cs ub cu : Nat) :
    (pullLoop sb edges ub cs cu).1 > 0 → (pullLoop sb edges ub cs cu).2.2.1 = 0 := by
  intro h
  obtain ⟨-, i1, -, -⟩ := pullLoop_spec sb edges cs ub cu
  have h1 : (pullLoop sb edges ub cs cu).1 = 1 := by
    rcases pullLoop_ret sb edges cs ub cu with hh | hh | hh | hh <;> omega
  exact (i1.mp h1).2.1

theorem rxLoop_count_stuff (fuel : Nat) :
    ∀ cd cd', rxLoop fuel cd = some cd' → cd'.unstuf.count_stuff = 0 := by
  induction fuel with
  | zero => intro cd cd' h; simp [rxLoop] at h
  | succ n ih =>
    intro cd cd' h
    simp only [rxLoop] at h
    by_cases h0 : (unstuf_pull_bits cd.unstuf).1 = 0
    · rw [if_pos h0] at h
      exact ih _ _ h
    · rw [if_neg h0] at h
      by_cases hpos : (unstuf_pull_bits cd.unstuf).1 > 0
      · rw [if_pos hpos] at h
        have hcs : (unstuf_pull_bits cd.unstuf).2.count_stuff = 0 :=
          pullLoop_pos _ _ _ _ _ hpos
        injection h with h2
        rw [← h2]
        exact hcs
      · rw [if_neg hpos] at h
        by_cases hm1 : (unstuf_pull_bits cd.unstuf).1 = -1
        · rw [if_pos hm1] at h
          exact ih _ _ h
        · rw [if_neg hm1] at h
          exact ih _ _ h

/-- C9: the `process_rx` pull loop hands control back only after
`unstuf_pull_bits` returned 1, which leaves `count_stuff = 0`; hence every
`unstuf_add_bits` call (which overwrites `count_stuff` with the fresh
count) happens with `count_stuff = 0`, so no raw bit in the window is ever
beyond the cursor's reach. -/
theorem c9_process_rx_drains_window :
    (∀ cd b cd', process_rx cd b = some cd' → cd'.unstuf.count_stuff = 0) ∧
    (∀ bu data count, (unstuf_add_bits bu data count).count_stuff = count) := by
  constructor
  · intro cd b cd' h
    exact rxLoop_count_stuff 64 _ _ h
  · intro bu data count
    rfl


/-! ## Field effects of the transmit scheduler helpers -/

theorem tx_do_schedule_push (cd : Can) : (tx_do_schedule cd).tx_push_pos = cd.tx_push_pos := by
  unfold tx_do_schedule
  split
  · rfl
  · split <;> rfl

theorem tx_do_schedule_queue (cd : Can) : (tx_do_schedule cd).tx_queue = cd.tx_queue := by
  unfold tx_do_schedule
  split
  · rfl
  · split <;> rfl

/-- C4: `can2040_transmit` returns −1 exactly when the queue is full
(`push − pull ≥ capacity` unsigned), leaving the state untouched;
otherwise it returns 0, stores into the next slot the sanitized message
(id masked to 11 bits, DLC clamped to 8, payload zero-extended) together
with its encoded stuffed words and 15-bit CRC, and increments
`tx_push_pos` by exactly one. -/
theorem c4_can2040_transmit_spec (cd : Can) (msg : Msg) :
    ((can2040_transmit cd msg).1 = -1 ↔ pending cd ≥ capacity) ∧
    (pending cd ≥ capacity → (can2040_transmit cd msg).2 = cd) ∧
    (pending cd < capacity →
      (can2040_transmit cd msg).1 = 0 ∧
      (can2040_transmit cd msg).2.tx_push_pos = (cd.tx_push_pos + 1) % W32 ∧
      (can2040_transmit cd msg).2.tx_queue = cd.tx_queue.set (tx_qpos cd.tx_push_pos)
        (encodeSlot (msg.addr &&& 0x7ff) (if msg.data_len > 8 then 8 else msg.data_len)
          (msg.d1.take (if msg.data_len > 8 then 8 else msg.data_len)
            ++ List.replicate (8 - (if msg.data_len > 8 then 8 else msg.data_len)) 0)) ∧
      (encodeSlot (msg.addr &&& 0x7ff) (if msg.data_len > 8 then 8 else msg.data_len)
          (msg.d1.take (if msg.data_len > 8 then 8 else msg.data_len)
            ++ List.replicate (8 - (if msg.data_len > 8 then 8 else msg.data_len)) 0)).msg
        = ⟨msg.addr &&& 0x7ff, if msg.data_len > 8 then 8 else msg.data_len,
           msg.d1.take (if msg.data_len > 8 then 8 else msg.data_len)
             ++ List.replicate (8 - (if msg.data_len > 8 then 8 else msg.data_len)) 0⟩ ∧
      (encodeSlot (msg.addr &&& 0x7ff) (if msg.data_len > 8 then 8 else msg.data_len)
          (msg.d1.take (if msg.data_len > 8 then 8 else msg.data_len)
            ++ List.replicate (8 - (if msg.data_len > 8 then 8 else msg.data_len)) 0)).crc
        < 2 ^ 15) := by
  have hstore_push : (can2040_transmit_store cd msg).tx_push_pos = (cd.tx_push_pos + 1) % W32 := by
    simp only [can2040_transmit_store]
    split
    · rw [tx_do_schedule_push]
    · rfl
  have hstore_queue : (can2040_transmit_store cd msg).tx_queue = cd.tx_queue.set
      (tx_qpos cd.tx_push_pos)
      (encodeSlot (msg.addr &&& 0x7ff) (if msg.data_len > 8 then 8 else msg.data_len)
        (msg.d1.take (if msg.data_len > 8 then 8 else msg.data_len)
          ++ List.replicate (8 - (if msg.data_len > 8 then 8 else msg.data_len)) 0)) := by
    simp only [can2040_transmit_store]
    split
    · rw [tx_do_schedule_queue]
    · rfl
  by_cases hfull : pending cd ≥ capacity
  · have hfull' : (cd.tx_push_pos + W32 - cd.tx_pull_pos) % W32 ≥ capacity := hfull
    refine ⟨⟨fun _ => hfull, fun _ => ?_⟩, fun _ => ?_, fun hnf => absurd hnf (by omega)⟩
    · unfold can2040_transmit
      rw [if_pos hfull']
    · unfold can2040_transmit
      rw [if_pos hfull']
  · have hfull' : ¬ ((cd.tx_push_pos + W32 - cd.tx_pull_pos) % W32 ≥ capacity) := hfull
    have heq : can2040_transmit cd msg = (0, can2040_transmit_store cd msg) := by
      unfold can2040_transmit
      rw [if_neg hfull']
    refine ⟨⟨fun hm1 => ?_, fun hge => absurd hge hfull⟩, fun hge => absurd hge hfull,
      fun _ => ⟨by rw [heq], by rw [heq]; exact hstore_push, by rw [heq]; exact hstore_queue,
        rfl, lt_of_le_of_lt Nat.and_le_right (by norm_num)⟩⟩
    rw [heq] at hm1
    exact absurd hm1 (by simp)


theorem go_crc_fields (s : Can) :
    (data_state_go_crc s).parse_state = .mCrc ∧
    (data_state_go_crc s).parse_crc = s.parse_crc &&& 0x7fff ∧
    (data_state_go_crc s).parse_msg = s.parse_msg ∧
    (data_state_go_crc s).parse_hdr = s.parse_hdr ∧
    (data_state_go_crc s).unstuf.count_unstuff = 15 ∧
    (data_state_go_crc s).unstuf.unstuffed_bits = 0 := by
  unfold data_state_go_crc
  simp only [tx_check_self_transmit, tx_cancel, log, unstuf_set_count]
  repeat' split
  all_goals simp

/-- C5: for a field delivered in the START state, a set IDE bit or nonzero
reserved bits (`data & ((1<<18)|(7<<4))`) sends the parser to DISCARD
without touching the in-progress message; otherwise the header is
recorded, the CRC seeded with `crcbits(0, data, 18)`, the identifier taken
from bits 7..17, the DLC clamped to 8, the payload zeroed, and the parser
moves to CRC when the clamped DLC is 0 and to DATA otherwise. -/
theorem c5_update_start_spec (cd : Can) (data : Nat) :
    (data &&& ((1 <<< 18) ||| (7 <<< 4)) ≠ 0 →
      (data_state_update_start cd data).parse_state = .mDiscard ∧
      (data_state_update_start cd data).parse_msg = cd.parse_msg) ∧
    (data &&& ((1 <<< 18) ||| (7 <<< 4)) = 0 →
      (data_state_update_start cd data).parse_hdr = data ∧
      (data_state_update_start cd data).parse_msg.addr = (data >>> 7) &&& 0x7ff ∧
      (data_state_update_start cd data).parse_msg.data_len
        = (if data &&& 0xf > 8 then 8 else data &&& 0xf) ∧
      (data_state_update_start cd data).parse_msg.d1 = [0, 0, 0, 0, 0, 0, 0, 0] ∧
      ((if data &&& 0xf > 8 then 8 else data &&& 0xf) = 0 →
        (data_state_update_start cd data).parse_state = .mCrc ∧
        (data_state_update_start cd data).parse_crc = crcbits 0 data 18 &&& 0x7fff) ∧
      ((if data &&& 0xf > 8 then 8 else data &&& 0xf) ≠ 0 →
        (data_state_update_start cd data).parse_state = .mData ∧
        (data_state_update_start cd data).parse_crc = crcbits 0 data 18 ∧
        (data_state_update_start cd data).unstuf.count_unstuff = 8)) := by
  constructor
  · intro hbad
    unfold data_state_update_start
    rw [if_pos hbad]
    exact ⟨rfl, rfl⟩
  · intro hok
    simp only [data_state_update_start]
    rw [if_neg (by simpa using hok)]
    by_cases hdlc : (if data &&& 0xf > 8 then 8 else data &&& 0xf) = 0
    · rw [if_pos (show (0:Nat) ≥ (if data &&& 0xf > 8 then 8 else data &&& 0xf) by omega)]
      obtain ⟨g1, g2, g3, g4, g5, g6⟩ := go_crc_fields
        { cd with
          parse_hdr := data
          parse_crc := crcbits 0 data 18
          parse_msg := { addr := (data >>> 7) &&& 0x7ff,
                         data_len := if data &&& 0xf > 8 then 8 else data &&& 0xf,
                         d1 := [0, 0, 0, 0, 0, 0, 0, 0] }
          parse_datapos := 0 }
      refine ⟨?_, ?_, ?_, ?_, fun _ => ⟨?_, ?_⟩, fun h => absurd hdlc h⟩ <;>
        simp [log, g1, g2, g3, g4]
    · rw [if_neg (show ¬ ((0:Nat) ≥ (if data &&& 0xf > 8 then 8 else data &&& 0xf)) by omega)]
      exact ⟨rfl, rfl, rfl, rfl, fun h => absurd h hdlc, fun _ => ⟨rfl, rfl, rfl⟩⟩


/-- The message used by the concrete interaction traces below. -/
def traceMsg : Msg := ⟨0x123, 1, [0xA5, 0, 0, 0, 0, 0, 0, 0]⟩

/-- Interactions driving `cancel_count` past 32 with received-bus errors
only: enqueue one frame while the parser is in DISCARD, then four all-zero
bytes (each zero bit is a six-low stuff error, so `tx_cancel` runs eight
times per byte). -/
def pumpSteps : List Step := .tx traceMsg :: List.replicate 4 (.rx 0)

/-- C7 counterexample: from the reachable pumped state, the idle byte
makes `tx_do_schedule` take the `cancel_count > 32` drop path with exactly
one pending frame; `pio_tx_send` is still called (newest event), at a
moment where `tx_pull_pos = tx_push_pos = 1`, i.e. for a slot that is not
pending.  The words handed over are the empty slot's, not the queued
frame's. -/
theorem c7_counterexample :
    (runSteps startState (pumpSteps ++ [.rx 0xff])).map
        (fun s => (s.events.take 2, s.tx_push_pos, s.tx_pull_pos, s.in_transmit))
      = some ([.pioTxSend [] 0, .cbTxFail traceMsg], 1, 1, true) := by decide

/-- C7 (amended): `tx_do_schedule` returns unchanged when `in_transmit` is
set or the queue is empty; otherwise it calls `pio_tx_send` on the slot at
the (possibly advanced) `tx_pull_pos`, and that slot is pending — the new
pull position differs from `tx_push_pos` — except exactly when
`cancel_count > 32` and only one frame was pending, in which case the drop
path empties the queue and `pio_tx_send` is called anyway. -/
theorem c7_tx_do_schedule_spec (cd : Can)
    (hpush : cd.tx_push_pos < W32) (hpull : cd.tx_pull_pos < W32) :
    (cd.in_transmit = true ∨ cd.tx_push_pos = cd.tx_pull_pos → tx_do_schedule cd = cd) ∧
    (cd.in_transmit = false → cd.tx_push_pos ≠ cd.tx_pull_pos →
      (tx_do_schedule cd).in_transmit = true ∧
      (tx_do_schedule cd).tx_pull_pos
        = (if cd.cancel_count > 32 then (cd.tx_pull_pos + 1) % W32 else cd.tx_pull_pos) ∧
      (tx_do_schedule cd).events.head? = some (.pioTxSend
        ((getSlot cd ((tx_do_schedule cd).tx_pull_pos)).stuffed_data.take
          (getSlot cd ((tx_do_schedule cd).tx_pull_pos)).stuffed_words)
        (getSlot cd ((tx_do_schedule cd).tx_pull_pos)).stuffed_words) ∧
      ((cd.tx_push_pos + W32 - (tx_do_schedule cd).tx_pull_pos) % W32 ≠ 0
        ↔ ¬(cd.cancel_count > 32 ∧ pending cd = 1))) := by
  have hW : W32 = 4294967296 := by norm_num [W32]
  constructor
  · intro h
    unfold tx_do_schedule
    rw [if_pos (by rcases h with h | h <;> simp [h])]
  · intro hit hne
    have hcond : ¬ (cd.in_transmit = true ∨ cd.tx_push_pos = cd.tx_pull_pos) := by
      simp [hit, hne]
    have h1 : (tx_do_schedule cd).in_transmit = true := by
      simp only [tx_do_schedule]
      rw [if_neg hcond]
      rfl
    by_cases hcc : cd.cancel_count > 32
    · have h2 : (tx_do_schedule cd).tx_pull_pos = (cd.tx_pull_pos + 1) % W32 := by
        simp only [tx_do_schedule]
        rw [if_neg hcond, if_pos hcc]
        rfl
      have h3 : (tx_do_schedule cd).events.head? = some (.pioTxSend
          ((getSlot cd ((cd.tx_pull_pos + 1) % W32)).stuffed_data.take
            (getSlot cd ((cd.tx_pull_pos + 1) % W32)).stuffed_words)
          (getSlot cd ((cd.tx_pull_pos + 1) % W32)).stuffed_words) := by
        simp only [tx_do_schedule]
        rw [if_neg hcond, if_pos hcc]
        rfl
      refine ⟨h1, by rw [h2, if_pos hcc], by rw [h2]; exact h3, ?_⟩
      rw [h2]
      simp only [hcc, true_and, gt_iff_lt]
      simp only [pending, hW]
      rw [hW] at hpush hpull
      omega
    · have h2 : (tx_do_schedule cd).tx_pull_pos = cd.tx_pull_pos := by
        simp only [tx_do_schedule]
        rw [if_neg hcond, if_neg hcc]
        rfl
      have h3 : (tx_do_schedule cd).events.head? = some (.pioTxSend
          ((getSlot cd cd.tx_pull_pos).stuffed_data.take
            (getSlot cd cd.tx_pull_pos).stuffed_words)
          (getSlot cd cd.tx_pull_pos).stuffed_words) := by
        simp only [tx_do_schedule]
        rw [if_neg hcond, if_neg hcc]
        rfl
      refine ⟨h1, by rw [h2, if_neg hcc], by rw [h2]; exact h3, ?_⟩
      rw [h2]
      have hrhs : ¬(cd.cancel_count > 32 ∧ pending cd = 1) := fun hand => hcc hand.1
      refine iff_of_true ?_ hrhs
      rw [hW] at hpush hpull ⊢
      omega


set_option maxRecDepth 100000 in
/-- C10: `data_state_go_discard` always runs `tx_cancel`, which increments
`cancel_count` and clears `in_transmit` unconditionally — also when no
transmission was in progress.  Consequently, on the concrete trace that
enqueues one frame during DISCARD and then receives only error bytes,
`cancel_count` reaches 33 (> 32) with `in_transmit` still clear and no
`pio_tx_send` ever issued; the next bus-idle byte then makes
`tx_do_schedule` report TX_FAIL for that never-transmitted frame (the only
`pio_tx_send` ever issued carries the empty next slot, not this frame's
stuffed words). -/
theorem c10_discard_pumps_cancel_count :
    (∀ cd, (data_state_go_discard cd).cancel_count = (cd.cancel_count + 1) % W32
      ∧ (data_state_go_discard cd).in_transmit = false) ∧
    ((runSteps startState pumpSteps).map
        (fun s => (s.cancel_count, s.in_transmit, s.events.filter Event.isTxSend))
      = some (33, false, [])) ∧
    ((runSteps startState (pumpSteps ++ [.rx 0xff])).map
        (fun s => (s.events.filter Event.isTxFail, s.events.filter Event.isTxSend))
      = some ([.cbTxFail traceMsg], [.pioTxSend [] 0])) := by
  refine ⟨fun cd => ⟨rfl, rfl⟩, by decide, by decide⟩

/-- The wire bytes of a frame with identifier 0, DLC 0 (header and CRC are
all zero bits, so CRC matches trivially), bit-stuffed, followed by the CRC
delimiter, a dominant ACK slot and recessive EOF/idle bits. -/
def zeroFrameBytes : List Step :=
  [.rx 4, .rx 16, .rx 65, .rx 4, .rx 16, .rx 191, .rx 255, .rx 255]

set_option maxRecDepth 400000 in
/-- C6: a reachable trace in which `pending = tx_push_pos − tx_pull_pos`
(unsigned) leaves `[0, capacity]`.  After the C7 drop path empties the
queue while setting `in_transmit`, a received all-zero frame matches the
stale zeroed slot at `tx_pull_pos = tx_push_pos`, so `tx_finalize`
advances `tx_pull_pos` past `tx_push_pos`: pending becomes 2^32 − 1 > 4 =
capacity (and a TX confirmation is reported for a frame that was never
enqueued). -/
theorem c6_pending_overflow_trace :
    ((runSteps startState ((pumpSteps ++ [.rx 0xff]) ++ zeroFrameBytes)).map
        (fun s => (pending s, s.tx_push_pos, s.tx_pull_pos))
      = some (W32 - 1, 1, 2)) ∧ W32 - 1 > capacity := by
  constructor
  · decide
  · norm_num [W32, capacity]


/-! ## Witnesses -/

theorem c8_unstuf_pull_bits_spec_witness :
    pullLoop 0xF8 (0xF8 ^^^ (0xF8 >>> 1)) 0 3 5 = pullLoop 0xF8 (0xF8 ^^^ (0xF8 >>> 1)) 0 2 5 :=
  (c8_unstuf_pull_bits_spec ⟨0xF8, 8, 0, 4⟩).2 0 2 5 (by decide) (by decide) (by decide)

set_option maxRecDepth 40000 in
theorem c9_process_rx_drains_window_witness :
    ((process_rx startState 0xff).map (fun c => c.unstuf.count_stuff)).getD 1 = 0 := by
  cases h : process_rx startState 0xff with
  | none => exact absurd h (by decide)
  | some c => exact c9_process_rx_drains_window.1 startState 0xff c h

theorem c4_can2040_transmit_spec_witness : (can2040_transmit startState traceMsg).1 = 0 :=
  ((c4_can2040_transmit_spec startState traceMsg).2.2 (by decide)).1

theorem c5_update_start_spec_witness :
    (data_state_update_start startState 0x20).parse_state = .mDiscard :=
  ((c5_update_start_spec startState 0x20).1 (by decide)).1

theorem c7_tx_do_schedule_spec_witness :
    (tx_do_schedule { startState with tx_push_pos := 1 }).in_transmit = true :=
  ((c7_tx_do_schedule_spec { startState with tx_push_pos := 1 }
      (by decide) (by decide)).2 (by decide) (by decide)).1


/-! ## List view of bit words

`wordBits n w` is the list of the low `n` bits of `w`, most significant
(i.e. oldest on the wire) first; `bitsVal` is its inverse. -/

def wordBits : Nat → Nat → List Bool
  | 0, _ => []
  | n + 1, w => w.testBit n :: wordBits n w

def bitsVal : List Bool → Nat
  | [] => 0
  | x :: xs => (cond x 1 0) * 2 ^ xs.length + bitsVal xs

@[simp] theorem wordBits_length (n w : Nat) : (wordBits n w).length = n := by
  induction n generalizing w with
  | zero => rfl
  | succ k ih => simp [wordBits, ih]

theorem bitsVal_lt (l : List Bool) : bitsVal l < 2 ^ l.length := by
  induction l with
  | nil => simp [bitsVal]
  | cons x xs ih =>
    simp only [bitsVal, List.length_cons, pow_succ]
    cases x <;> simp <;> omega

theorem wordBits_congr {n v w : Nat} (h : ∀ i, i < n → v.testBit i = w.testBit i) :
    wordBits n v = wordBits n w := by
  induction n with
  | zero => rfl
  | succ k ih =>
    simp only [wordBits]
    rw [h k (Nat.lt_succ_self k), ih fun i hi => h i (Nat.lt_succ_of_lt hi)]

theorem bitsVal_wordBits (n w : Nat) : bitsVal (wordBits n w) = w % 2 ^ n := by
  induction n generalizing w with
  | zero => simp [wordBits, bitsVal, Nat.mod_one]
  | succ k ih =>
    simp only [wordBits, bitsVal, wordBits_length, ih]
    rw [Nat.testBit_to_div_mod]
    have hsplit : w % 2 ^ (k + 1) = w % 2 ^ k + 2 ^ k * (w / 2 ^ k % 2) := by
      rw [pow_succ, Nat.mod_mul]
    rcases Nat.mod_two_eq_zero_or_one (w / 2 ^ k) with h | h <;> rw [h] at hsplit <;>
      simp [h, hsplit] <;> omega

theorem bitsVal_append (l1 l2 : List Bool) :
    bitsVal (l1 ++ l2) = bitsVal l1 * 2 ^ l2.length + bitsVal l2 := by
  induction l1 with
  | nil => simp [bitsVal]
  | cons x xs ih =>
    simp only [List.cons_append, bitsVal, List.length_append, ih, pow_add]
    rw [show (xs.append l2).length = xs.length + l2.length from List.length_append xs l2]
    rw [show bitsVal (xs.append l2) = bitsVal xs * 2 ^ l2.length + bitsVal l2 from ih]
    rw [pow_add]
    ring

theorem wordBits_testBit (n w : Nat) : ∀ j, j < n →
    (wordBits n w).getD j false = w.testBit (n - 1 - j) := by
  induction n generalizing w with
  | zero => omega
  | succ k ih =>
    intro j hj
    match j with
    | 0 => simp [wordBits]
    | j' + 1 =>
      simp only [wordBits, List.getD_cons_succ]
      rw [ih w j' (by omega)]
      congr 1
      omega


/-! ## The abstract bit stuffer

`stuffList last run l` inserts an opposite bit after every run of five
equal bits, where `run` equal bits of value `last` immediately precede `l`
in the stream; `stuffSt` is the final (value, run-length) state. -/

def stuffList (last : Bool) (run : Nat) : List Bool → List Bool
  | [] => []
  | x :: xs =>
    let run' := if x = last then run + 1 else 1
    if run' = 5 then x :: (!x) :: stuffList (!x) 1 xs else x :: stuffList x run' xs

def stuffSt (last : Bool) (run : Nat) : List Bool → Bool × Nat
  | [] => (last, run)
  | x :: xs =>
    let run' := if x = last then run + 1 else 1
    if run' = 5 then stuffSt (!x) 1 xs else stuffSt x run' xs

theorem stuffList_append (l1 l2 : List Bool) : ∀ last run,
    stuffList last run (l1 ++ l2)
      = stuffList last run l1
        ++ stuffList (stuffSt last run l1).1 (stuffSt last run l1).2 l2 := by
  induction l1 with
  | nil => intro last run; rfl
  | cons x xs ih =>
    intro last run
    simp only [List.cons_append, stuffList, stuffSt]
    by_cases h : (if x = last then run + 1 else 1) = 5
    · simp only [if_pos h]
      simp [ih]
    · simp only [if_neg h]
      simp [ih]

theorem stuffList_short (l : List Bool) : ∀ last run, run + l.length ≤ 4 →
    stuffList last run l = l := by
  induction l with
  | nil => intro last run _; rfl
  | cons x xs ih =>
    intro last run h
    simp only [List.length_cons] at h
    have hne : (if x = last then run + 1 else 1) ≠ 5 := by
      split <;> omega
    simp only [stuffList, if_neg hne]
    rw [ih]
    split <;> omega

theorem stuffList_length_ge (l : List Bool) : ∀ last run,
    l.length ≤ (stuffList last run l).length := by
  induction l with
  | nil => intro last run; simp [stuffList]
  | cons x xs ih =>
    intro last run
    simp only [stuffList]
    by_cases h : (if x = last then run + 1 else 1) = 5
    · simp only [if_pos h, List.length_cons]
      have := ih (!x) 1
      omega
    · simp only [if_neg h, List.length_cons]
      have := ih x (if x = last then run + 1 else 1)
      omega


/-! ## Run-length invariant relating a word cursor to the abstract stuffer -/

/-- At cursor `ip1` of word `b`, the `run` (1..4) bits just above the
cursor equal `last`, and the run is exact when shorter than 4. -/
def runInv (b ip1 : Nat) (last : Bool) (run : Nat) : Prop :=
  1 ≤ run ∧ run ≤ 4 ∧ (∀ j, j < run → b.testBit (ip1 + j) = last) ∧
  (run < 5 → b.testBit (ip1 + run) = !last)

theorem shiftRight_and_mask_zero_iff (y i k : Nat) :
    (y >>> i) &&& (2 ^ k - 1) = 0 ↔ ∀ j, j < k → y.testBit (i + j) = false := by
  rw [Nat.and_pow_two_sub_one_eq_mod]
  constructor
  · intro h j hj
    have := Nat.testBit_mod_two_pow (y >>> i) k j
    rw [h] at this
    simp [hj, Nat.testBit_shiftRight] at this
    exact this
  · intro h
    apply Nat.eq_of_testBit_eq
    intro j
    simp only [Nat.zero_testBit, Nat.testBit_mod_two_pow]
    by_cases hj : j < k
    · simp [hj, Nat.testBit_shiftRight, h j hj]
    · simp [hj]

theorem edges_testBit (b j : Nat) :
    (b ^^^ (b >>> 1)).testBit j = (b.testBit j != b.testBit (j + 1)) := by
  simp [Nat.testBit_xor, Nat.testBit_shiftRight, Nat.add_comm]

/-- The insertion test of `bitstuff`: the four edge bits above `i` vanish
exactly when bits `i..i+4` of `b` are all equal. -/
theorem edges_window_iff (b i : Nat) :
    ((b ^^^ (b >>> 1)) >>> i) &&& 0xf = 0 ↔
      ∀ j, j ≤ 4 → b.testBit (i + j) = b.testBit i := by
  have h15 : (0xf : Nat) = 2 ^ 4 - 1 := by norm_num
  rw [h15, shiftRight_and_mask_zero_iff]
  constructor
  · intro h j hj
    induction j with
    | zero => rfl
    | succ m ihm =>
      have hm := h m (by omega)
      rw [edges_testBit] at hm
      have : b.testBit (i + m) = b.testBit (i + m + 1) := by
        revert hm
        cases b.testBit (i + m) <;> cases b.testBit (i + m + 1) <;> simp
      rw [show i + (m + 1) = i + m + 1 by omega, ← this]
      exact ihm (by omega)
  · intro h j hj
    rw [edges_testBit]
    have h1 := h j (by omega)
    have h2 := h (j + 1) (by omega)
    rw [show i + (j + 1) = i + j + 1 by omega] at h2
    rw [h1, h2]
    simp

theorem runInv_step {b pos : Nat} {last : Bool} {run : Nat}
    (h : runInv b (pos + 1) last run)
    (hne : (if b.testBit pos = last then run + 1 else 1) ≠ 5) :
    runInv b pos (b.testBit pos) (if b.testBit pos = last then run + 1 else 1) := by
  obtain ⟨h1, h2, h3, h4⟩ := h
  by_cases hx : b.testBit pos = last
  · rw [if_pos hx] at *
    refine ⟨by omega, by omega, ?_, ?_⟩
    · intro j hj
      match j with
      | 0 => rfl
      | m + 1 =>
        rw [show pos + (m + 1) = (pos + 1) + m by omega, h3 m (by omega), hx]
    · intro hlt
      rw [show pos + (run + 1) = (pos + 1) + run by omega, h4 (by omega), hx]
  · rw [if_neg hx] at *
    refine ⟨le_refl 1, by omega, ?_, ?_⟩
    · intro j hj
      match j with
      | 0 => rfl
    · intro _
      have := h3 0 (by omega)
      rw [show pos + 1 + 0 = pos + 1 by omega] at this
      rw [show pos + 1 = pos + 1 by omega, this]
      revert hx
      cases b.testBit pos <;> cases last <;> simp

theorem runInv_steps : ∀ (k b pos : Nat) (last : Bool) (run : Nat),
    runInv b (pos + k) last run → run + k ≤ 4 →
    runInv b pos (stuffSt last run (wordBits k (b >>> pos))).1
      (stuffSt last run (wordBits k (b >>> pos))).2
    ∧ (stuffSt last run (wordBits k (b >>> pos))).2 ≤ run + k := by
  intro k
  induction k with
  | zero =>
    intro b pos last run h _
    simp only [wordBits, stuffSt]
    exact ⟨h, by omega⟩
  | succ m ih =>
    intro b pos last run h hb
    have hx : (b >>> pos).testBit m = b.testBit (pos + m) := by
      rw [Nat.testBit_shiftRight]
    have hne : (if b.testBit (pos + m) = last then run + 1 else 1) ≠ 5 := by
      split <;> omega
    have hstep := runInv_step
      (show runInv b (pos + m + 1) last run by
        rw [show pos + m + 1 = pos + (m + 1) from by omega]; exact h) hne
    simp only [wordBits, stuffSt, hx, if_neg hne]
    by_cases hxl : b.testBit (pos + m) = last
    · rw [if_pos hxl] at hstep ⊢
      obtain ⟨hi1, hi2⟩ := ih b pos (b.testBit (pos + m)) (run + 1) hstep (by omega)
      exact ⟨hi1, by omega⟩
    · rw [if_neg hxl] at hstep ⊢
      obtain ⟨hi1, hi2⟩ := ih b pos (b.testBit (pos + m)) 1 hstep (by omega)
      exact ⟨hi1, by omega⟩


/-! ## Word-level form of one stuff-bit insertion -/

theorem xor_two_pow_mul_add {k a r : Nat} (hr : r < 2 ^ k) :
    (2 ^ k * a) ^^^ r = 2 ^ k * a + r := by
  rw [Nat.mul_add_lt_is_or hr]
  apply Nat.eq_of_testBit_eq
  intro j
  simp only [Nat.testBit_xor, Nat.testBit_or, Nat.testBit_mul_pow_two]
  by_cases hj : j < k
  · simp [hj, Nat.not_le_of_lt hj]
  · have : r.testBit j = false := Nat.testBit_lt_two_pow (lt_of_lt_of_le hr
      (Nat.pow_le_pow_right (by omega) (by omega)))
    simp [this]

theorem xor_two_pow {k r : Nat} (hr : r < 2 ^ k) : (2 ^ k) ^^^ r = 2 ^ k + r := by
  have := xor_two_pow_mul_add (a := 1) hr
  simpa using this

theorem and_high_mask (b i : Nat) (hb : b < W32) (hi : i ≤ 32) :
    b &&& ((W32 - 1) ^^^ (2 ^ i - 1)) = 2 ^ i * (b / 2 ^ i) := by
  have h1 : 2 ^ i * (b / 2 ^ i) + b % 2 ^ i = b := Nat.div_add_mod b (2 ^ i)
  apply Nat.eq_of_testBit_eq
  intro j
  rw [show W32 = 2 ^ 32 from rfl] at hb ⊢
  simp only [Nat.testBit_and, Nat.testBit_xor, Nat.testBit_two_pow_sub_one,
    Nat.testBit_mul_pow_two]
  by_cases hj : j < i
  · simp [hj, lt_of_lt_of_le hj hi, Nat.not_le_of_lt hj]
  · by_cases hj32 : j < 32
    · have : b.testBit j = (b / 2 ^ i).testBit (j - i) := by
        rw [← Nat.shiftRight_eq_div_pow, Nat.testBit_shiftRight]
        congr 1
        omega
      simp [hj, hj32, Nat.le_of_not_lt hj, this]
    · have hbf : b.testBit j = false := Nat.testBit_lt_two_pow (lt_of_lt_of_le hb
        (Nat.pow_le_pow_right (by omega) (by omega)))
      have heq : (b / 2 ^ i).testBit (j - i) = b.testBit j := by
        rw [← Nat.shiftRight_eq_div_pow, Nat.testBit_shiftRight]
        congr 1
        omega
      simp [hj, hj32, hbf, heq]

theorem xor_low_flip (b i : Nat) :
    (b % 2 ^ (i + 1)) ^^^ 2 ^ i = 2 ^ i * (cond (b.testBit i) 0 1) + b % 2 ^ i := by
  have hsplit : b % 2 ^ (i + 1) = b % 2 ^ i + 2 ^ i * (b / 2 ^ i % 2) := by
    rw [pow_succ, Nat.mod_mul]
  have hblt : b % 2 ^ i < 2 ^ i := Nat.mod_lt b (Nat.pos_pow_of_pos i (by omega))
  have htb : b.testBit i = decide (b / 2 ^ i % 2 = 1) := Nat.testBit_to_div_mod
  rcases Nat.mod_two_eq_zero_or_one (b / 2 ^ i) with h | h
  · rw [hsplit, h, htb, h]
    simp only [Nat.mul_zero, Nat.add_zero]
    rw [Nat.xor_comm, xor_two_pow hblt]
    simp [Nat.add_comm]
  · rw [hsplit, h, htb, h]
    simp only [Nat.mul_one]
    rw [Nat.add_comm (b % 2 ^ i) (2 ^ i), ← xor_two_pow hblt,
      Nat.xor_comm (2 ^ i) (b % 2 ^ i), Nat.xor_assoc]
    simp

theorem insert_word_eq (b i : Nat) (hb : b < W32) (hi : i < 32) :
    ((((b &&& ((W32 - 1) ^^^ (((1 <<< (i + 1)) - 1) >>> 1))) <<< 1) % W32)
        ^^^ (b &&& ((1 <<< (i + 1)) - 1)) ^^^ (1 <<< i)) % W32
      = (2 ^ (i + 1) * (b >>> i)
          + (2 ^ i * (cond (b.testBit i) 0 1) + b % 2 ^ i)) % W32 := by
  have hmask : ((1 <<< (i + 1)) - 1) >>> 1 = 2 ^ i - 1 := by
    rw [Nat.shiftLeft_eq, one_mul, Nat.shiftRight_eq_div_pow]
    rw [pow_succ]
    omega
  have hW : W32 = 2 ^ (i + 1) * 2 ^ (31 - i) := by
    rw [show W32 = 2 ^ 32 from rfl, ← pow_add]
    congr 1
    omega
  have hr_lt : 2 ^ i * (cond (b.testBit i) 0 1) + b % 2 ^ i < 2 ^ (i + 1) := by
    have hblt : b % 2 ^ i < 2 ^ i := Nat.mod_lt b (Nat.pos_pow_of_pos i (by omega))
    rw [pow_succ]
    cases b.testBit i <;> simp <;> omega
  rw [hmask, and_high_mask b i hb (by omega),
    Nat.shiftLeft_eq (2 ^ i * (b / 2 ^ i)) 1, pow_one,
    Nat.shiftLeft_eq 1 (i + 1), one_mul, Nat.shiftLeft_eq 1 i, one_mul,
    Nat.and_pow_two_sub_one_eq_mod]
  have hhigh : 2 ^ i * (b / 2 ^ i) * 2 = 2 ^ (i + 1) * (b / 2 ^ i) := by
    rw [pow_succ]
    ring
  rw [hhigh, hW, Nat.mul_mod_mul_left, ← hW]
  rw [Nat.xor_assoc, xor_low_flip b i]
  rw [xor_two_pow_mul_add hr_lt]
  conv_rhs => rw [show b >>> i = b / 2 ^ i from Nat.shiftRight_eq_div_pow b i]
  rw [show 2 ^ (i + 1) * (b / 2 ^ i % 2 ^ (31 - i))
        = 2 ^ (i + 1) * (b / 2 ^ i) % W32 by rw [hW, Nat.mul_mod_mul_left]]
  rw [Nat.mod_add_mod]


theorem stuffSt_append (l1 l2 : List Bool) : ∀ last run,
    stuffSt last run (l1 ++ l2)
      = stuffSt (stuffSt last run l1).1 (stuffSt last run l1).2 l2 := by
  induction l1 with
  | nil => intro last run; rfl
  | cons x xs ih =>
    intro last run
    simp only [List.cons_append, stuffSt]
    by_cases h : (if x = last then run + 1 else 1) = 5
    · simp only [if_pos h]
      exact ih _ _
    · simp only [if_neg h]
      exact ih _ _

theorem wordBits_split (j k w : Nat) :
    wordBits (k + j) w = wordBits j (w >>> k) ++ wordBits k w := by
  induction j with
  | zero => simp [wordBits]
  | succ m ih =>
    have ht : (w >>> k).testBit m = w.testBit (k + m) := by
      rw [Nat.testBit_shiftRight]
    rw [show k + (m + 1) = (k + m) + 1 from rfl]
    simp only [wordBits, ih, ht, List.cons_append]

theorem mod_pow_absorb {a c : Nat} (q r : Nat) (h : 32 ≤ a + c) :
    ((q % 2 ^ a) * 2 ^ c + r) % W32 = (q * 2 ^ c + r) % W32 := by
  conv_rhs => rw [← Nat.div_add_mod q (2 ^ a)]
  rw [Nat.add_mul, Nat.mul_comm (2 ^ a) (q / 2 ^ a), Nat.mul_assoc, ← pow_add]
  rw [show 2 ^ (a + c) = 2 ^ (a + c - 32) * W32 by
    rw [show W32 = 2 ^ 32 from rfl, ← pow_add]; congr 1; omega]
  rw [show q / 2 ^ a * (2 ^ (a + c - 32) * W32) + q % 2 ^ a * 2 ^ c + r
        = (q % 2 ^ a * 2 ^ c + r) + (q / 2 ^ a * 2 ^ (a + c - 32)) * W32 by ring,
    Nat.add_mul_mod_self_right]

theorem shiftRight_mod32 (x m : Nat) (hm : m ≤ 32) :
    (x % W32) >>> m = (x >>> m) % 2 ^ (32 - m) := by
  rw [show W32 = 2 ^ m * 2 ^ (32 - m) by
    rw [show W32 = 2 ^ 32 from rfl, ← pow_add]; congr 1; omega]
  rw [Nat.shiftRight_eq_div_pow, Nat.shiftRight_eq_div_pow]
  exact Nat.mod_mul_right_div_self x (2 ^ m) (2 ^ (32 - m))

theorem shiftr_decomp (b i : Nat) :
    b >>> i = 2 * (b >>> (i + 1)) + (cond (b.testBit i) 1 0) := by
  rw [Nat.shiftRight_eq_div_pow, Nat.shiftRight_eq_div_pow,
    Nat.testBit_to_div_mod]
  rw [pow_succ, ← Nat.div_div_eq_div_mul]
  rcases Nat.mod_two_eq_zero_or_one (b / 2 ^ i) with h | h <;>
    · rw [h]
      simp
      omega

theorem mod_eq_imp_wordBits_eq {n a b : Nat} (h : a % 2 ^ n = b % 2 ^ n) :
    wordBits n a = wordBits n b := by
  apply wordBits_congr
  intro i hi
  have ha := Nat.testBit_mod_two_pow a n i
  have hb := Nat.testBit_mod_two_pow b n i
  rw [h] at ha
  rw [ha] at hb
  simp only [hi, decide_True, Bool.true_and] at hb
  exact hb


theorem testBit_eq_of_mod_eq {n a b : Nat} (h : a % 2 ^ n = b % 2 ^ n) :
    ∀ j, j < n → a.testBit j = b.testBit j := by
  intro j hj
  have ha := Nat.testBit_mod_two_pow a n j
  have hb := Nat.testBit_mod_two_pow b n j
  rw [h] at ha
  rw [ha] at hb
  simp only [hj, decide_True, Bool.true_and] at hb
  exact hb

/-- Word-level bit stuffer agrees with the abstract list stuffer
`stuffList`: starting at cursor `ip1` of word `b` in a run context
described by `runInv`, the loop emits exactly the stuffed form of the
`ip1` unscanned bits, appended below the already-scanned upper part. -/
theorem bitstuffLoop_spec (ip1 : Nat) : ∀ (b cnt : Nat) (last : Bool) (run : Nat),
    b < W32 → ip1 ≤ 31 → runInv b ip1 last run →
    (bitstuffLoop ip1 b cnt).2
        = cnt + ((stuffList last run (wordBits ip1 b)).length - ip1)
    ∧ (bitstuffLoop ip1 b cnt).1
        = ((b >>> ip1) * 2 ^ (stuffList last run (wordBits ip1 b)).length
            + bitsVal (stuffList last run (wordBits ip1 b))) % W32
    ∧ runInv (bitstuffLoop ip1 b cnt).1 0
        (stuffSt last run (wordBits ip1 b)).1
        (stuffSt last run (wordBits ip1 b)).2 := by
  induction ip1 using Nat.strong_induction_on with
  | _ ip1 IH =>
  cases ip1 with
  | zero =>
    intro b cnt last run hb _ hinv
    refine ⟨by simp [bitstuffLoop, stuffList, wordBits], ?_, ?_⟩
    · simp [bitstuffLoop, stuffList, wordBits, bitsVal, Nat.mod_eq_of_lt hb]
    · simpa [bitstuffLoop, stuffSt, wordBits] using hinv
  | succ i =>
    intro b cnt last run hb hip hinv
    by_cases hwin : ((b ^^^ (b >>> 1)) >>> i) &&& 0xf = 0
    · -- insertion case: bits i..i+4 of b are all equal
      have hred : bitstuffLoop (i + 1) b cnt
          = bitstuffLoop (i - 3)
              (((((b &&& ((W32 - 1) ^^^ (((1 <<< (i + 1)) - 1) >>> 1))) <<< 1) % W32)
                  ^^^ (b &&& ((1 <<< (i + 1)) - 1)) ^^^ (1 <<< i)) % W32) (cnt + 1) := by
        simp only [bitstuffLoop, if_pos hwin]
      set x := b.testBit i with hxdef
      set m := i - 3 with hmdef
      set b_new := (((((b &&& ((W32 - 1) ^^^ (((1 <<< (i + 1)) - 1) >>> 1))) <<< 1) % W32)
          ^^^ (b &&& ((1 <<< (i + 1)) - 1)) ^^^ (1 <<< i)) % W32) with hbndef
      set c := (cond (b.testBit i) 0 1 : Nat) with hcdef
      obtain ⟨h1, h2, h3, h4⟩ := hinv
      have hwin' := (edges_window_iff b i).mp hwin
      have hx : x = last := by
        have e1 := hwin' 1 (by omega)
        have e2 := h3 0 (by omega)
        rw [show i + 1 + 0 = i + 1 by omega] at e2
        rw [e1] at e2
        exact e2
      have hrun4 : run = 4 := by
        by_contra hne
        have e3 := h4 (by omega)
        have e4 := hwin' (1 + run) (by omega)
        rw [show i + (1 + run) = i + 1 + run by omega, e3, ← hxdef, hx] at e4
        revert e4
        cases last <;> simp
      have hbnew : b_new = (2 ^ (i + 1) * (b >>> i) + (2 ^ i * c + b % 2 ^ i)) % W32 := by
        have h0 := insert_word_eq b i hb (by omega)
        rw [← hbndef, ← hcdef] at h0
        exact h0
      have hbnew_lt : b_new < W32 := by
        rw [hbnew]
        exact Nat.mod_lt _ (by norm_num [W32])
      have hc1 : c ≤ 1 := by rw [hcdef]; cases b.testBit i <;> simp
      have hblo : b % 2 ^ i < 2 ^ i := Nat.mod_lt b (by positivity)
      have hr2lt : 2 ^ i * c + b % 2 ^ i < 2 ^ (i + 1) := by
        rw [pow_succ]
        nlinarith [pow_pos (show (0:Nat) < 2 by norm_num) i]
      have hmodi : b_new % 2 ^ i = b % 2 ^ i := by
        rw [hbnew]
        rw [Nat.mod_mod_of_dvd _ (by
          rw [show W32 = 2 ^ 32 from rfl]
          exact pow_dvd_pow 2 (by omega))]
        rw [show 2 ^ (i + 1) * (b >>> i) + (2 ^ i * c + b % 2 ^ i)
              = 2 ^ i * (2 * (b >>> i) + c) + b % 2 ^ i by ring]
        rw [Nat.mul_add_mod]
        exact Nat.mod_mod_of_dvd _ dvd_rfl
      have hbits_lo : ∀ j, j < i → b_new.testBit j = b.testBit j := by
        apply testBit_eq_of_mod_eq
        rw [hmodi]
      have hmodm : b_new % 2 ^ m = b % 2 ^ m := by
        have h1' : b_new % 2 ^ i % 2 ^ m = b % 2 ^ i % 2 ^ m := by rw [hmodi]
        rwa [Nat.mod_mod_of_dvd _ (pow_dvd_pow 2 (by omega)),
          Nat.mod_mod_of_dvd _ (pow_dvd_pow 2 (by omega))] at h1'
      have hcx : c = cond x 0 1 := by rw [hcdef, hxdef]
      have hbit_i : b_new.testBit i = !x := by
        have hmod1 : b_new % 2 ^ (i + 1) = 2 ^ i * c + b % 2 ^ i := by
          rw [hbnew]
          rw [Nat.mod_mod_of_dvd _ (by
            rw [show W32 = 2 ^ 32 from rfl]
            exact pow_dvd_pow 2 (by omega))]
          rw [Nat.mul_add_mod]
          exact Nat.mod_eq_of_lt hr2lt
        have ht := Nat.testBit_mod_two_pow b_new (i + 1) i
        rw [hmod1] at ht
        simp only [show i < i + 1 by omega, decide_True, Bool.true_and] at ht
        rw [← ht]
        cases hxv : x
        · rw [hcx, hxv]
          simp only [cond_false]
          rw [show (2:Nat) ^ i * 1 + b % 2 ^ i = 2 ^ i + b % 2 ^ i by ring]
          rw [Nat.testBit_to_div_mod]
          rw [Nat.add_div_left _ (show 0 < 2 ^ i by positivity)]
          rw [Nat.div_eq_of_lt hblo]
          rfl
        · rw [hcx, hxv]
          simp only [cond_true]
          rw [show (2:Nat) ^ i * 0 + b % 2 ^ i = b % 2 ^ i by ring]
          simp [Nat.testBit_lt_two_pow hblo]
      have hbit_i1 : b_new.testBit (i + 1) = x := by
        rw [hbnew]
        have h32 : ((2 ^ (i + 1) * (b >>> i) + (2 ^ i * c + b % 2 ^ i)) % W32).testBit (i + 1)
            = (2 ^ (i + 1) * (b >>> i) + (2 ^ i * c + b % 2 ^ i)).testBit (i + 1) := by
          have ht := Nat.testBit_mod_two_pow
            (2 ^ (i + 1) * (b >>> i) + (2 ^ i * c + b % 2 ^ i)) 32 (i + 1)
          rw [show (2:Nat) ^ 32 = W32 from rfl] at ht
          rw [ht]
          simp only [show i + 1 < 32 by omega, decide_True, Bool.true_and]
        rw [h32]
        rw [Nat.testBit_mul_pow_two_add _ hr2lt]
        simp only [show ¬ (i + 1 < i + 1) from by omega, if_neg, Nat.sub_self]
        rw [hxdef]
        simp [Nat.testBit_shiftRight]
      have hinv_new : runInv b_new i (!x) 1 := by
        refine ⟨le_refl 1, by omega, ?_, ?_⟩
        · intro j hj
          have hj0 : j = 0 := by omega
          subst hj0
          simpa using hbit_i
        · intro _
          rw [hbit_i1]
          simp
      have hsteps := runInv_steps (i - m) b_new m (!x) 1
        (by rw [show m + (i - m) = i by omega]; exact hinv_new) (by omega)
      have hseg_eq : wordBits (i - m) (b_new >>> m) = wordBits (i - m) (b >>> m) := by
        apply wordBits_congr
        intro j hj
        rw [Nat.testBit_shiftRight, Nat.testBit_shiftRight]
        exact hbits_lo (m + j) (by omega)
      rw [hseg_eq] at hsteps
      obtain ⟨hsinv, hsle⟩ := hsteps
      set st2 := stuffSt (!x) 1 (wordBits (i - m) (b >>> m)) with hst2def
      have htail_eq : wordBits m b_new = wordBits m b := mod_eq_imp_wordBits_eq hmodm
      have hIH := IH m (by omega) b_new (cnt + 1) st2.1 st2.2 hbnew_lt (by omega) hsinv
      rw [htail_eq] at hIH
      set TL := stuffList st2.1 st2.2 (wordBits m b) with hTLdef
      obtain ⟨IHcnt, IHval, IHinv⟩ := hIH
      have hTLge : m ≤ TL.length := by
        have hg := stuffList_length_ge (wordBits m b) st2.1 st2.2
        rw [wordBits_length] at hg
        rw [hTLdef]
        exact hg
      have hwb : wordBits (i + 1) b = x :: wordBits i b := by
        rw [hxdef]
        simp only [wordBits]
      have hwbsplit : wordBits i b = wordBits (i - m) (b >>> m) ++ wordBits m b := by
        rw [← wordBits_split]
        congr 1
        omega
      have hrun5 : (if x = last then run + 1 else 1) = 5 := by rw [if_pos hx, hrun4]
      have hshort : stuffList (!x) 1 (wordBits (i - m) (b >>> m)) = wordBits (i - m) (b >>> m) := by
        apply stuffList_short
        rw [wordBits_length]
        omega
      have hsl : stuffList last run (wordBits (i + 1) b)
          = x :: (!x) :: (wordBits (i - m) (b >>> m) ++ TL) := by
        rw [hwb]
        simp only [stuffList]
        rw [if_pos hrun5, hwbsplit, stuffList_append, hshort, ← hst2def, ← hTLdef]
      have hstS : stuffSt last run (wordBits (i + 1) b)
          = stuffSt st2.1 st2.2 (wordBits m b) := by
        rw [hwb]
        simp only [stuffSt]
        rw [if_pos hrun5, hwbsplit, stuffSt_append, ← hst2def]
      refine ⟨?_, ?_, ?_⟩
      · rw [hred, IHcnt, hsl]
        simp only [List.length_cons, List.length_append, wordBits_length]
        omega
      · rw [hred, IHval, hsl]
        have hsegval : bitsVal (wordBits (i - m) (b >>> m)) = (b % 2 ^ i) >>> m := by
          rw [bitsVal_wordBits]
          rw [Nat.shiftRight_eq_div_pow, Nat.shiftRight_eq_div_pow]
          rw [show (2:Nat) ^ i = 2 ^ m * 2 ^ (i - m) by rw [← pow_add]; congr 1; omega]
          exact (Nat.mod_mul_right_div_self b (2 ^ m) (2 ^ (i - m))).symm
        have hshift : b_new >>> m
            = (2 ^ (i + 1 - m) * (b >>> i) + 2 ^ (i - m) * c + (b % 2 ^ i) >>> m)
                % 2 ^ (32 - m) := by
          rw [hbnew, shiftRight_mod32 _ _ (by omega)]
          congr 1
          generalize b >>> i = A
          rw [Nat.shiftRight_eq_div_pow, Nat.shiftRight_eq_div_pow]
          have e1 : (2:Nat) ^ m * 2 ^ (i + 1 - m) = 2 ^ (i + 1) := by
            rw [← pow_add]; congr 1; omega
          have e2 : (2:Nat) ^ m * 2 ^ (i - m) = 2 ^ i := by
            rw [← pow_add]; congr 1; omega
          rw [show 2 ^ (i + 1) * A + (2 ^ i * c + b % 2 ^ i)
                = 2 ^ m * (2 ^ (i + 1 - m) * A + 2 ^ (i - m) * c) + b % 2 ^ i from by
            rw [mul_add, ← mul_assoc, e1, ← mul_assoc, e2]; ring]
          rw [Nat.mul_add_div (show 0 < 2 ^ m by positivity)]
        obtain ⟨k, hk⟩ : ∃ k, i = m + k := ⟨i - m, by omega⟩
        rw [hshift, mod_pow_absorb _ _ (by omega)]
        simp only [bitsVal, bitsVal_append, List.length_cons, List.length_append,
          wordBits_length, hsegval]
        rw [shiftr_decomp b i, ← hxdef, hcx]
        rw [show i + 1 - m = k + 1 by omega, show i - m = k by omega]
        congr 1
        cases x <;> · simp only [cond_true, cond_false, Bool.not_true, Bool.not_false]
                      ring
      · rw [hred, hstS]
        exact IHinv
    · -- no insertion
      have hred : bitstuffLoop (i + 1) b cnt = bitstuffLoop i b cnt := by
        simp only [bitstuffLoop, if_neg hwin]
      set x := b.testBit i with hxdef
      set run' := (if x = last then run + 1 else 1) with hrdef
      have hne5 : run' ≠ 5 := by
        intro h5
        have hx : x = last := by
          by_contra hxx
          rw [hrdef, if_neg hxx] at h5
          omega
        have hrun4 : run = 4 := by
          rw [hrdef, if_pos hx] at h5
          omega
        apply hwin
        apply (edges_window_iff b i).mpr
        intro j hj
        match j with
        | 0 => rfl
        | jj + 1 =>
          have h3 := hinv.2.2.1 jj (by omega)
          rw [show i + (jj + 1) = i + 1 + jj by omega, h3, ← hx]
      have hinv' : runInv b i x run' := runInv_step hinv hne5
      obtain ⟨IHcnt, IHval, IHinv⟩ := IH i (by omega) b cnt x run' hb (by omega) hinv'
      have hwb : wordBits (i + 1) b = x :: wordBits i b := by
        rw [hxdef]
        simp only [wordBits]
      have hsl : stuffList last run (wordBits (i + 1) b)
          = x :: stuffList x run' (wordBits i b) := by
        rw [hwb]
        simp only [stuffList]
        rw [if_neg hne5, ← hrdef]
      have hstS : stuffSt last run (wordBits (i + 1) b)
          = stuffSt x run' (wordBits i b) := by
        rw [hwb]
        simp only [stuffSt]
        rw [if_neg hne5, ← hrdef]
      refine ⟨?_, ?_, ?_⟩
      · rw [hred, IHcnt, hsl]
        have hge := stuffList_length_ge (wordBits i b) x run'
        rw [wordBits_length] at hge
        simp only [List.length_cons]
        omega
      · rw [hred, IHval, hsl]
        simp only [bitsVal, List.length_cons]
        rw [shiftr_decomp b i, ← hxdef]
        congr 1
        cases x <;> · simp only [cond_true, cond_false]
                      ring
      · rw [hred, hstS]
        exact IHinv

theorem stuffList_length_le (l : List Bool) : ∀ (last : Bool) (run : Nat),
    1 ≤ run → run ≤ 4 →
    (stuffList last run l).length ≤ l.length + (l.length + run - 1) / 4 := by
  induction l with
  | nil => intro last run _ _; simp [stuffList]
  | cons x xs ih =>
    intro last run hr1 hr4
    simp only [stuffList]
    by_cases h5 : (if x = last then run + 1 else 1) = 5
    · have hx : x = last := by
        by_contra hxx
        rw [if_neg hxx] at h5
        omega
      have hrun : run = 4 := by
        rw [if_pos hx] at h5
        omega
      simp only [if_pos h5, List.length_cons]
      have := ih (!x) 1 (by omega) (by omega)
      omega
    · simp only [if_neg h5, List.length_cons]
      by_cases hxl : x = last
      · simp only [if_pos hxl] at h5 ⊢
        have := ih x (run + 1) (by omega) (by omega)
        omega
      · simp only [if_neg hxl] at h5 ⊢
        have := ih x 1 (by omega) (by omega)
        omega

theorem replicate_prefix_stuffList (l : List Bool) : ∀ (last : Bool) (run : Nat)
    (v : Bool) (r : Nat), 1 ≤ run → run ≤ 4 →
    List.replicate r v <+: stuffList last run l →
    r ≤ 5 ∧ (v = last → r + run ≤ 5) := by
  induction l with
  | nil =>
    intro last run v r _ _ hp
    simp only [stuffList] at hp
    have := hp.length_le
    simp at this
    omega
  | cons x xs ih =>
    intro last run v r hr1 hr4 hp
    simp only [stuffList] at hp
    match r with
    | 0 => exact ⟨by omega, fun _ => by omega⟩
    | r' + 1 =>
      rw [List.replicate_succ] at hp
      by_cases h5 : (if x = last then run + 1 else 1) = 5
      · have hx : x = last := by
          by_contra hxx
          rw [if_neg hxx] at h5
          omega
        have hrun : run = 4 := by
          rw [if_pos hx] at h5
          omega
        rw [if_pos h5] at hp
        have hv : v = x := (List.cons_prefix_cons.mp hp).1
        match r' with
        | 0 => exact ⟨by omega, fun _ => by omega⟩
        | r'' + 1 =>
          rw [List.replicate_succ] at hp
          have h2 := (List.cons_prefix_cons.mp hp).2
          have hv2 : v = !x := (List.cons_prefix_cons.mp h2).1
          rw [hv] at hv2
          cases x <;> simp at hv2
      · rw [if_neg h5] at hp
        have hv : v = x := (List.cons_prefix_cons.mp hp).1
        have hrest := (List.cons_prefix_cons.mp hp).2
        by_cases hxl : x = last
        · rw [if_pos hxl] at h5 hrest
          obtain ⟨hih1, hih2⟩ := ih x (run + 1) v r' (by omega) (by omega) hrest
          have h2 := hih2 hv
          exact ⟨by omega, fun _ => by omega⟩
        · rw [if_neg hxl] at hrest
          obtain ⟨hih1, hih2⟩ := ih x 1 v r' (by omega) (by omega) hrest
          have h2 := hih2 hv
          refine ⟨by omega, ?_⟩
          intro hvl
          rw [hvl] at hv
          exact absurd hv.symm hxl

theorem no_six_stuffList (l : List Bool) : ∀ (last : Bool) (run : Nat) (v : Bool),
    1 ≤ run → run ≤ 4 →
    ¬ (List.replicate 6 v <:+: stuffList last run l) := by
  induction l with
  | nil =>
    intro last run v _ _ hi
    simp only [stuffList] at hi
    have := hi.length_le
    simp at this
  | cons x xs ih =>
    intro last run v hr1 hr4 hi
    simp only [stuffList] at hi
    by_cases h5 : (if x = last then run + 1 else 1) = 5
    · have hx : x = last := by
        by_contra hxx
        rw [if_neg hxx] at h5
        omega
      have hrun : run = 4 := by
        rw [if_pos hx] at h5
        omega
      rw [if_pos h5] at hi
      rcases List.infix_cons_iff.mp hi with hp | hi2
      · have := replicate_prefix_stuffList (x :: xs) last run v 6 hr1 hr4 (by
          simp only [stuffList, if_pos h5]
          exact hp)
        omega
      · rcases List.infix_cons_iff.mp hi2 with hp2 | hi3
        · have heq : (!x) :: stuffList (!x) 1 xs = stuffList x 4 ((!x) :: xs) := by
            simp only [stuffList]
            rw [if_neg (by cases x <;> simp)]
            rw [if_neg (by simp)]
          rw [heq] at hp2
          have := replicate_prefix_stuffList ((!x) :: xs) x 4 v 6 (by omega) (by omega) hp2
          omega
        · exact ih (!x) 1 v (by omega) (by omega) hi3
    · rw [if_neg h5] at hi
      rcases List.infix_cons_iff.mp hi with hp | hi2
      · have := replicate_prefix_stuffList (x :: xs) last run v 6 hr1 hr4 (by
          simp only [stuffList, if_neg h5]
          exact hp)
        omega
      · by_cases hxl : x = last
        · rw [if_pos hxl] at h5 hi2
          exact ih x (run + 1) v (by omega) (by omega) hi2
        · rw [if_neg hxl] at hi2
          exact ih x 1 v (by omega) (by omega) hi2

/-- The `prev_stuffed` dataflow of a sequence of `bs_push` calls
(src/src/can2040.c:443-452), collecting for each call the low `newcount`
bits of the stuffed word that the call hands to `bs_pushraw`. -/
def bsRun (prev : Nat) : List (Nat × Nat) → List Bool × Nat
  | [] => ([], prev)
  | (data, count) :: rest =>
    let sc := bitstuff (((prev <<< count) ||| (data &&& ((1 <<< count) - 1))) % W32) count
    let r := bsRun sc.1 rest
    (wordBits sc.2 sc.1 ++ r.1, r.2)

/-- The unstuffed input bits of a sequence of `bs_push` calls: for each
call the low `count` bits of `data`, MSB first. -/
def chunksBits : List (Nat × Nat) → List Bool
  | [] => []
  | (data, count) :: rest => wordBits count (data &&& ((1 <<< count) - 1)) ++ chunksBits rest

theorem shiftLeft_one_sub_one (count : Nat) : (1 <<< count) - 1 = 2 ^ count - 1 := by
  rw [Nat.shiftLeft_eq, one_mul]

theorem stuf_testBit_hi {prev d count : Nat} (j : Nat) (hd : d < 2 ^ count)
    (hj : count + j < 32) :
    (((prev <<< count) ||| d) % W32).testBit (count + j) = prev.testBit j := by
  have h1 := Nat.testBit_mod_two_pow ((prev <<< count) ||| d) 32 (count + j)
  rw [show (2:Nat) ^ 32 = W32 from rfl] at h1
  rw [h1]
  simp only [hj, decide_True, Bool.true_and]
  rw [Nat.testBit_or, Nat.testBit_shiftLeft]
  simp only [show count ≤ count + j by omega, decide_True, Bool.true_and]
  rw [show count + j - count = j by omega]
  rw [Nat.testBit_lt_two_pow
    (lt_of_lt_of_le hd (Nat.pow_le_pow_right (by norm_num) (by omega)))]
  simp

theorem stuf_testBit_lo {prev d count : Nat} (j : Nat) (hj : j < count)
    (hj32 : j < 32) :
    (((prev <<< count) ||| d) % W32).testBit j = d.testBit j := by
  have h1 := Nat.testBit_mod_two_pow ((prev <<< count) ||| d) 32 j
  rw [show (2:Nat) ^ 32 = W32 from rfl] at h1
  rw [h1]
  simp only [hj32, decide_True, Bool.true_and]
  rw [Nat.testBit_or, Nat.testBit_shiftLeft]
  simp only [show ¬ (count ≤ j) by omega, decide_False, Bool.false_and, Bool.false_or]

theorem wordBits_bitsVal_self : ∀ (l : List Bool) (w : Nat),
    w % 2 ^ l.length = bitsVal l → wordBits l.length w = l := by
  intro l
  induction l with
  | nil => intro w _; rfl
  | cons x xs ih =>
    intro w hw
    simp only [List.length_cons, bitsVal] at hw
    have hV : bitsVal xs < 2 ^ xs.length := bitsVal_lt xs
    have hmodn : w % 2 ^ xs.length = bitsVal xs := by
      have : w % 2 ^ (xs.length + 1) % 2 ^ xs.length = w % 2 ^ xs.length := by
        rw [Nat.mod_mod_of_dvd _ (pow_dvd_pow 2 (by omega))]
      rw [← this, hw]
      rw [show (cond x 1 0) * 2 ^ xs.length + bitsVal xs
            = 2 ^ xs.length * (cond x 1 0) + bitsVal xs by ring]
      rw [Nat.mul_add_mod]
      exact Nat.mod_eq_of_lt hV
    have htop : w.testBit xs.length = x := by
      have ht := Nat.testBit_mod_two_pow w (xs.length + 1) xs.length
      rw [hw] at ht
      simp only [show xs.length < xs.length + 1 by omega, decide_True, Bool.true_and] at ht
      rw [← ht]
      cases x
      · simp only [cond_false, zero_mul, zero_add]
        exact Nat.testBit_lt_two_pow hV
      · simp only [cond_true, one_mul]
        rw [Nat.testBit_to_div_mod]
        rw [Nat.add_div_left _ (show 0 < 2 ^ xs.length by positivity)]
        rw [Nat.div_eq_of_lt hV]
        rfl
    simp only [List.length_cons, wordBits, htop]
    rw [ih w hmodn]

/-- Chaining a sequence of `bs_push` calls: the emitted bits are exactly
the abstract stuffing of the concatenated input bits, and the final
`prev_stuffed` still carries a faithful trailing-run description. -/
theorem bsRun_spec : ∀ (chunks : List (Nat × Nat)) (prev : Nat) (last : Bool) (run : Nat),
    prev < W32 → runInv prev 0 last run →
    (∀ c ∈ chunks, c.2 ≤ 25) →
    (bsRun prev chunks).1 = stuffList last run (chunksBits chunks)
    ∧ runInv (bsRun prev chunks).2 0 (stuffSt last run (chunksBits chunks)).1
        (stuffSt last run (chunksBits chunks)).2
    ∧ (bsRun prev chunks).2 < W32 := by
  intro chunks
  induction chunks with
  | nil =>
    intro prev last run hlt hinv _
    exact ⟨rfl, hinv, hlt⟩
  | cons ch rest ih =>
    intro prev last run hlt hinv hcounts
    obtain ⟨data, count⟩ := ch
    have hcount : count ≤ 25 := hcounts (data, count) (by simp)
    obtain ⟨p1, p2, p3, p4⟩ := hinv
    set d := data &&& ((1 <<< count) - 1) with hddef
    have hdlt : d < 2 ^ count := by
      rw [hddef, shiftLeft_one_sub_one, Nat.and_pow_two_sub_one_eq_mod]
      exact Nat.mod_lt data (by positivity)
    set stuf := ((prev <<< count) ||| d) % W32 with hstufdef
    have hstuf_lt : stuf < W32 := Nat.mod_lt _ (by norm_num [W32])
    have hctx : runInv stuf count last run := by
      refine ⟨p1, p2, ?_, ?_⟩
      · intro j hj
        rw [hstufdef, stuf_testBit_hi j hdlt (by omega)]
        have := p3 j hj
        simpa using this
      · intro hlt4
        rw [hstufdef, stuf_testBit_hi run hdlt (by omega)]
        have := p4 hlt4
        simpa using this
    have hwlow : wordBits count stuf = wordBits count d := by
      apply wordBits_congr
      intro j hj
      rw [hstufdef, stuf_testBit_lo j hj (by omega)]
    have hbs : bitstuff stuf count = bitstuffLoop count stuf count := by
      rw [bitstuff, Nat.mod_eq_of_lt hstuf_lt]
    obtain ⟨hcnt, hval, hinv2⟩ :=
      bitstuffLoop_spec count stuf count last run hstuf_lt (by omega) hctx
    rw [hwlow] at hcnt hval hinv2
    set sl := stuffList last run (wordBits count d) with hsldef
    have hlen_ge : count ≤ sl.length := by
      have := stuffList_length_ge (wordBits count d) last run
      rw [wordBits_length] at this
      exact this
    have hlen_le : sl.length ≤ 32 := by
      have h := stuffList_length_le (wordBits count d) last run p1 p2
      rw [wordBits_length] at h
      have h2 : sl.length = (stuffList last run (wordBits count d)).length := by rw [hsldef]
      omega
    have hcnt' : (bitstuffLoop count stuf count).2 = sl.length := by
      rw [hcnt]
      omega
    have hsc1_lt : (bitstuffLoop count stuf count).1 < W32 := by
      rw [hval]
      exact Nat.mod_lt _ (by norm_num [W32])
    have hchunk : wordBits (bitstuffLoop count stuf count).2 (bitstuffLoop count stuf count).1
        = sl := by
      rw [hcnt']
      apply wordBits_bitsVal_self
      rw [hval]
      rw [Nat.mod_mod_of_dvd _ (by
        rw [show W32 = 2 ^ 32 from rfl]
        exact pow_dvd_pow 2 hlen_le)]
      rw [show stuf >>> count * 2 ^ sl.length + bitsVal sl
            = 2 ^ sl.length * (stuf >>> count) + bitsVal sl by ring]
      rw [Nat.mul_add_mod]
      exact Nat.mod_eq_of_lt (bitsVal_lt sl)
    obtain ⟨ih1, ih2, ih3⟩ := ih (bitstuffLoop count stuf count).1
      (stuffSt last run (wordBits count d)).1 (stuffSt last run (wordBits count d)).2
      hsc1_lt hinv2 (fun c hc => hcounts c (by simp [hc]))
    have hred : bsRun prev ((data, count) :: rest)
        = (wordBits (bitstuffLoop count stuf count).2 (bitstuffLoop count stuf count).1
            ++ (bsRun (bitstuffLoop count stuf count).1 rest).1,
           (bsRun (bitstuffLoop count stuf count).1 rest).2) := by
      simp only [bsRun, ← hddef, ← hstufdef, hbs]
    have hcb : chunksBits ((data, count) :: rest) = wordBits count d ++ chunksBits rest := by
      simp only [chunksBits, ← hddef]
    refine ⟨?_, ?_, ?_⟩
    · rw [hred, hcb, stuffList_append, hchunk, ih1, hsldef]
    · rw [hred, hcb, stuffSt_append]
      exact ih2
    · rw [hred]
      exact ih3

theorem shift_and_one (sb k : Nat) : (sb >>> k) &&& 1 = cond (sb.testBit k) 1 0 := by
  rw [Nat.and_one_is_mod, Nat.testBit_to_div_mod, Nat.shiftRight_eq_div_pow]
  rcases Nat.mod_two_eq_zero_or_one (sb / 2 ^ k) with h | h <;> rw [h] <;> rfl

theorem or_shiftLeft_bitsVal (ub : Nat) (x : Bool) (xs : List Bool) :
    ub ||| (cond x 1 0) <<< xs.length ||| bitsVal xs = ub ||| bitsVal (x :: xs) := by
  rw [Nat.or_assoc]
  congr 1
  rw [Nat.shiftLeft_eq, bitsVal]
  rw [show (cond x 1 0) * 2 ^ xs.length = 2 ^ xs.length * (cond x 1 0) by ring]
  exact (Nat.mul_add_lt_is_or (bitsVal_lt xs) _).symm

/-- Pulling a complete stuffed field back out of the raw window: if the
window holds exactly `stuffList last run l` and the bits above the window
describe the stuffer's entry context, the pull loop returns 0 and
assembles exactly `l` (MSB first) into the accumulator. -/
theorem pullLoop_field (l : List Bool) : ∀ (sb : Nat) (last : Bool) (run : Nat) (ub : Nat),
    1 ≤ run → run ≤ 4 →
    (∀ j, j < run → sb.testBit ((stuffList last run l).length + j) = last) →
    sb.testBit ((stuffList last run l).length + run) = (!last) →
    wordBits (stuffList last run l).length sb = stuffList last run l →
    (pullLoop sb (sb ^^^ (sb >>> 1)) ub (stuffList last run l).length l.length).1 = 0
    ∧ (pullLoop sb (sb ^^^ (sb >>> 1)) ub (stuffList last run l).length l.length).2.1
        = ub ||| bitsVal l
    ∧ (pullLoop sb (sb ^^^ (sb >>> 1)) ub (stuffList last run l).length l.length).2.2.2
        = 0 := by
  induction l with
  | nil =>
    intro sb last run ub _ _ _ _ _
    simp only [stuffList, List.length_nil, bitsVal]
    rw [pullLoop]
    simp
  | cons x xs ih =>
    intro sb last run ub hr1 hr4 hctx3 hctx4 hw
    by_cases h5 : (if x = last then run + 1 else 1) = 5
    · -- the stuffer inserted a bit after this one
      have hx : x = last := by
        by_contra hxx
        rw [if_neg hxx] at h5
        omega
      have hrun : run = 4 := by
        rw [if_pos hx] at h5
        omega
      have hsl : stuffList last run (x :: xs) = x :: (!x) :: stuffList (!x) 1 xs := by
        simp only [stuffList]
        rw [if_pos h5]
      rw [hsl] at hctx3 hctx4 hw ⊢
      set S := stuffList (!x) 1 xs with hSdef
      set L := S.length with hLdef
      have hlen : (x :: (!x) :: S).length = L + 1 + 1 := by simp
      rw [hlen] at hctx3 hctx4 hw ⊢
      have hw1 : sb.testBit (L + 1) = x := by
        have : wordBits (L + 1 + 1) sb = sb.testBit (L + 1) :: wordBits (L + 1) sb := rfl
        rw [this] at hw
        exact (List.cons.injEq _ _ _ _ ▸ hw).1
      have hw2 : sb.testBit L = (!x) := by
        have e : wordBits (L + 1 + 1) sb
            = sb.testBit (L + 1) :: sb.testBit L :: wordBits L sb := rfl
        rw [e] at hw
        have := (List.cons.injEq _ _ _ _ ▸ hw).2
        exact (List.cons.injEq _ _ _ _ ▸ this).1
      have hw3 : wordBits L sb = S := by
        have e : wordBits (L + 1 + 1) sb
            = sb.testBit (L + 1) :: sb.testBit L :: wordBits L sb := rfl
        rw [e] at hw
        have := (List.cons.injEq _ _ _ _ ▸ hw).2
        exact (List.cons.injEq _ _ _ _ ▸ this).2
      -- first iteration: a normal data bit
      have hcond1 : ¬ (((sb ^^^ (sb >>> 1)) >>> (L + 1 + 1)) &&& 0xf = 0) := by
        intro h
        have hall := (edges_window_iff sb (L + 1 + 1)).mp h
        have e1 := hall 4 (by omega)
        have e2 := hctx3 0 (by omega)
        rw [show L + 1 + 1 + 0 = L + 1 + 1 by omega] at e2
        rw [show L + 1 + 1 + 4 = L + 1 + 1 + run by omega, hctx4, e2] at e1
        revert e1
        cases last <;> simp
      have estep1 : pullLoop sb (sb ^^^ (sb >>> 1)) ub (L + 1 + 1) (x :: xs).length
          = pullLoop sb (sb ^^^ (sb >>> 1))
              (ub ||| (cond x 1 0) <<< xs.length) (L + 1) xs.length := by
        simp only [List.length_cons]
        rw [pullLoop]
        rw [if_neg (by omega : ¬ (xs.length + 1 = 0))]
        rw [if_pos hcond1]
        rw [shift_and_one, hw1]
        simp
      rw [estep1]
      rcases xs with _ | ⟨y, ys⟩
      · -- no more bits wanted: the trailing stuff bit stays in the window
        simp only [List.length_nil]
        rw [pullLoop]
        simp only [if_pos rfl]
        refine ⟨rfl, ?_, rfl⟩
        cases x <;> simp [bitsVal]
      · -- skip the stuff bit, then pull the rest of the field
        have hcond2 : ((sb ^^^ (sb >>> 1)) >>> (L + 1)) &&& 0xf = 0 := by
          apply (edges_window_iff sb (L + 1)).mpr
          intro j hj
          match j with
          | 0 => rfl
          | jj + 1 =>
            rw [hw1]
            rw [show L + 1 + (jj + 1) = L + 1 + 1 + jj by omega]
            rw [hctx3 jj (by omega), hx]
        have hcond3 : ¬ (((sb ^^^ (sb >>> 1)) >>> L) &&& 0x1f = 0) := by
          intro h
          have hall := (shiftRight_and_mask_zero_iff _ L 5).mp (by
            rw [show ((0x1f : Nat)) = 2 ^ 5 - 1 from rfl] at h
            exact h)
          have e0 := hall 0 (by omega)
          rw [show L + 0 = L by omega, edges_testBit, hw2, hw1] at e0
          cases x <;> simp at e0
        have estep2 : pullLoop sb (sb ^^^ (sb >>> 1))
              (ub ||| (cond x 1 0) <<< (y :: ys).length) (L + 1) (y :: ys).length
            = pullLoop sb (sb ^^^ (sb >>> 1))
              (ub ||| (cond x 1 0) <<< (y :: ys).length) L (y :: ys).length := by
          rw [pullLoop]
          rw [if_neg (by simp : ¬ ((y :: ys).length = 0))]
          rw [if_neg (by simpa using hcond2)]
          rw [if_neg hcond3]
        rw [estep2]
        have hctx3' : ∀ j, j < 1 → sb.testBit (L + j) = (!x) := by
          intro j hj
          have hj0 : j = 0 := by omega
          subst hj0
          simpa using hw2
        have hctx4' : sb.testBit (L + 1) = !(!x) := by
          rw [hw1]
          cases x <;> rfl
        obtain ⟨r1, r2, r3⟩ := ih sb (!x) 1 (ub ||| (cond x 1 0) <<< (y :: ys).length)
          (by omega) (by omega) (by rw [← hSdef, ← hLdef]; exact hctx3')
          (by rw [← hSdef, ← hLdef]; exact hctx4') (by rw [← hSdef, ← hLdef]; exact hw3)
        rw [← hSdef, ← hLdef] at r1 r2 r3
        refine ⟨r1, ?_, r3⟩
        rw [r2]
        exact or_shiftLeft_bitsVal ub x (y :: ys)
    · -- no insertion after this bit
      have hsl : stuffList last run (x :: xs)
          = x :: stuffList x (if x = last then run + 1 else 1) xs := by
        simp only [stuffList]
        rw [if_neg h5]
      rw [hsl] at hctx3 hctx4 hw ⊢
      set run' := (if x = last then run + 1 else 1) with hrdef
      set S := stuffList x run' xs with hSdef
      set L := S.length with hLdef
      have hlen : (x :: S).length = L + 1 := by simp
      rw [hlen] at hctx3 hctx4 hw ⊢
      have hw1 : sb.testBit L = x := by
        have e : wordBits (L + 1) sb = sb.testBit L :: wordBits L sb := rfl
        rw [e] at hw
        exact (List.cons.injEq _ _ _ _ ▸ hw).1
      have hw3 : wordBits L sb = S := by
        have e : wordBits (L + 1) sb = sb.testBit L :: wordBits L sb := rfl
        rw [e] at hw
        exact (List.cons.injEq _ _ _ _ ▸ hw).2
      have hcond1 : ¬ (((sb ^^^ (sb >>> 1)) >>> (L + 1)) &&& 0xf = 0) := by
        intro h
        have hall := (edges_window_iff sb (L + 1)).mp h
        have e1 := hall run (by omega)
        have e2 := hctx3 0 (by omega)
        rw [show L + 1 + 0 = L + 1 by omega] at e2
        rw [hctx4, e2] at e1
        cases last <;> simp at e1
      have estep1 : pullLoop sb (sb ^^^ (sb >>> 1)) ub (L + 1) (x :: xs).length
          = pullLoop sb (sb ^^^ (sb >>> 1))
              (ub ||| (cond x 1 0) <<< xs.length) L xs.length := by
        simp only [List.length_cons]
        rw [pullLoop]
        rw [if_neg (by omega : ¬ (xs.length + 1 = 0))]
        rw [if_pos hcond1]
        rw [shift_and_one, hw1]
        simp
      rw [estep1]
      have hctx3' : ∀ j, j < run' → sb.testBit (L + j) = x := by
        intro j hj
        match j with
        | 0 => simpa using hw1
        | jj + 1 =>
          rw [show L + (jj + 1) = L + 1 + jj by omega]
          by_cases hxl : x = last
          · rw [hrdef, if_pos hxl] at hj
            rw [hctx3 jj (by omega), hxl]
          · rw [hrdef, if_neg hxl] at hj
            omega
      have hctx4' : sb.testBit (L + run') = (!x) := by
        by_cases hxl : x = last
        · rw [hrdef, if_pos hxl]
          rw [show L + (run + 1) = L + 1 + run by omega]
          rw [hctx4, hxl]
        · rw [hrdef, if_neg hxl]
          have e := hctx3 0 (by omega)
          rw [show L + 1 + 0 = L + 1 by omega] at e
          rw [e]
          revert hxl
          cases x <;> cases last <;> simp
      have hr1' : 1 ≤ run' := by
        rw [hrdef]
        split <;> omega
      have hr4' : run' ≤ 4 := by
        by_cases hxl : x = last
        · rw [hrdef, if_pos hxl]
          rw [hrdef, if_pos hxl] at h5
          omega
        · rw [hrdef, if_neg hxl]
          omega
      obtain ⟨r1, r2, r3⟩ := ih sb x run' (ub ||| (cond x 1 0) <<< xs.length)
        hr1' hr4' (by rw [← hSdef, ← hLdef]; exact hctx3')
        (by rw [← hSdef, ← hLdef]; exact hctx4') (by rw [← hSdef, ← hLdef]; exact hw3)
      rw [← hSdef, ← hLdef] at r1 r2 r3
      refine ⟨r1, ?_, r3⟩
      rw [r2]
      exact or_shiftLeft_bitsVal ub x xs

/-- One `bs_push`-style call of `bitstuff` on a word carrying the previous
stuffed output above the fresh `count` input bits. -/
theorem bitstuff_chunk_spec (prev data count : Nat) (last : Bool) (run : Nat)
    (hcount : count ≤ 25) (hprev : prev < W32) (hinv : runInv prev 0 last run) :
    (bitstuff (((prev <<< count) ||| (data &&& ((1 <<< count) - 1))) % W32) count).2
        = (stuffList last run (wordBits count (data &&& ((1 <<< count) - 1)))).length
    ∧ wordBits (bitstuff (((prev <<< count) ||| (data &&& ((1 <<< count) - 1))) % W32) count).2
        (bitstuff (((prev <<< count) ||| (data &&& ((1 <<< count) - 1))) % W32) count).1
        = stuffList last run (wordBits count (data &&& ((1 <<< count) - 1)))
    ∧ runInv (bitstuff (((prev <<< count) ||| (data &&& ((1 <<< count) - 1))) % W32) count).1 0
        (stuffSt last run (wordBits count (data &&& ((1 <<< count) - 1)))).1
        (stuffSt last run (wordBits count (data &&& ((1 <<< count) - 1)))).2
    ∧ (bitstuff (((prev <<< count) ||| (data &&& ((1 <<< count) - 1))) % W32) count).1 < W32
    ∧ (stuffList last run (wordBits count (data &&& ((1 <<< count) - 1)))).length
        ≤ count + (count + run - 1) / 4 := by
  obtain ⟨p1, p2, p3, p4⟩ := hinv
  set d := data &&& ((1 <<< count) - 1) with hddef
  have hdlt : d < 2 ^ count := by
    rw [hddef, shiftLeft_one_sub_one, Nat.and_pow_two_sub_one_eq_mod]
    exact Nat.mod_lt data (by positivity)
  set stuf := ((prev <<< count) ||| d) % W32 with hstufdef
  have hstuf_lt : stuf < W32 := Nat.mod_lt _ (by norm_num [W32])
  have hctx : runInv stuf count last run := by
    refine ⟨p1, p2, ?_, ?_⟩
    · intro j hj
      rw [hstufdef, stuf_testBit_hi j hdlt (by omega)]
      have := p3 j hj
      simpa using this
    · intro hlt4
      rw [hstufdef, stuf_testBit_hi run hdlt (by omega)]
      have := p4 hlt4
      simpa using this
  have hwlow : wordBits count stuf = wordBits count d := by
    apply wordBits_congr
    intro j hj
    rw [hstufdef, stuf_testBit_lo j hj (by omega)]
  have hbs : bitstuff stuf count = bitstuffLoop count stuf count := by
    rw [bitstuff, Nat.mod_eq_of_lt hstuf_lt]
  obtain ⟨hcnt, hval, hinv2⟩ :=
    bitstuffLoop_spec count stuf count last run hstuf_lt (by omega) hctx
  rw [hwlow] at hcnt hval hinv2
  set sl := stuffList last run (wordBits count d) with hsldef
  have hlen_ge : count ≤ sl.length := by
    have := stuffList_length_ge (wordBits count d) last run
    rw [wordBits_length] at this
    exact this
  have hlen_bound : sl.length ≤ count + (count + run - 1) / 4 := by
    have h := stuffList_length_le (wordBits count d) last run p1 p2
    rw [wordBits_length] at h
    have h2 : sl.length = (stuffList last run (wordBits count d)).length := by rw [hsldef]
    omega
  have hlen_le : sl.length ≤ 32 := by omega
  have hcnt' : (bitstuffLoop count stuf count).2 = sl.length := by
    rw [hcnt]
    omega
  have hsc1_lt : (bitstuffLoop count stuf count).1 < W32 := by
    rw [hval]
    exact Nat.mod_lt _ (by norm_num [W32])
  have hchunk : wordBits (bitstuffLoop count stuf count).2 (bitstuffLoop count stuf count).1
      = sl := by
    rw [hcnt']
    apply wordBits_bitsVal_self
    rw [hval]
    rw [Nat.mod_mod_of_dvd _ (by
      rw [show W32 = 2 ^ 32 from rfl]
      exact pow_dvd_pow 2 hlen_le)]
    rw [show stuf >>> count * 2 ^ sl.length + bitsVal sl
          = 2 ^ sl.length * (stuf >>> count) + bitsVal sl by ring]
    rw [Nat.mul_add_mod]
    exact Nat.mod_eq_of_lt (bitsVal_lt sl)
  rw [hbs]
  exact ⟨hcnt', hchunk, hinv2, hsc1_lt, hlen_bound⟩

/-- Amended C3 round-trip: stuffing `n` input bits in the word context the
encoder really uses (previous stuffed output above the input) and pulling
them back through an unstuffer whose window carries the same context
returns the input bits exactly. -/
theorem c3_stuff_unstuff_roundtrip (bits n prev : Nat) (last : Bool) (run : Nat)
    (hn : n ≤ 21) (hprev : prev < W32) (hinv : runInv prev 0 last run) :
    (unstuf_pull_bits (unstuf_set_count
        (unstuf_add_bits ⟨prev, 0, 0, 0⟩
          (bitstuff (((prev <<< n) ||| (bits &&& ((1 <<< n) - 1))) % W32) n).1
          (bitstuff (((prev <<< n) ||| (bits &&& ((1 <<< n) - 1))) % W32) n).2) n)).1 = 0
    ∧ (unstuf_pull_bits (unstuf_set_count
        (unstuf_add_bits ⟨prev, 0, 0, 0⟩
          (bitstuff (((prev <<< n) ||| (bits &&& ((1 <<< n) - 1))) % W32) n).1
          (bitstuff (((prev <<< n) ||| (bits &&& ((1 <<< n) - 1))) % W32) n).2)
        n)).2.unstuffed_bits = bits &&& ((1 <<< n) - 1) := by
  obtain ⟨hcnt, hchunk, hinv2, hsc_lt, hlen_bound⟩ :=
    bitstuff_chunk_spec prev bits n last run (by omega) hprev hinv
  set d := bits &&& ((1 <<< n) - 1) with hddef
  set sc := bitstuff (((prev <<< n) ||| d) % W32) n with hscdef
  set sl := stuffList last run (wordBits n d) with hsldef
  obtain ⟨p1, p2, p3, p4⟩ := hinv
  have hL27 : sl.length ≤ 27 := by
    have : (n + run - 1) / 4 ≤ 6 := by omega
    omega
  have hdlt : d < 2 ^ n := by
    rw [hddef, shiftLeft_one_sub_one, Nat.and_pow_two_sub_one_eq_mod]
    exact Nat.mod_lt _ (by positivity)
  set sb := ((prev <<< sc.2) ||| (sc.1 &&& ((1 <<< sc.2) - 1))) % W32 with hsbdef
  have hscmask : sc.1 &&& ((1 <<< sc.2) - 1) < 2 ^ sc.2 := by
    rw [shiftLeft_one_sub_one, Nat.and_pow_two_sub_one_eq_mod]
    exact Nat.mod_lt _ (by positivity)
  have hctx3 : ∀ j, j < run → sb.testBit (sl.length + j) = last := by
    intro j hj
    rw [hsbdef, ← hcnt]
    rw [stuf_testBit_hi j hscmask (by omega)]
    have := p3 j hj
    simpa using this
  have hctx4 : sb.testBit (sl.length + run) = (!last) := by
    rw [hsbdef, ← hcnt]
    rw [stuf_testBit_hi run hscmask (by omega)]
    have := p4 (by omega)
    simpa using this
  have hwin : wordBits sl.length sb = sl := by
    rw [← hcnt, ← hchunk]
    apply wordBits_congr
    intro j hj
    rw [hsbdef, stuf_testBit_lo j hj (by omega)]
    rw [shiftLeft_one_sub_one]
    rw [Nat.testBit_and, Nat.testBit_two_pow_sub_one]
    simp [hj]
  have hlenn : (wordBits n d).length = n := wordBits_length n d
  obtain ⟨f1, f2, f3⟩ := pullLoop_field (wordBits n d) sb last run 0 p1 p2
    (by rw [← hsldef]; exact hctx3) (by rw [← hsldef]; exact hctx4)
    (by rw [← hsldef]; exact hwin)
  rw [← hsldef] at f1 f2
  rw [hlenn] at f1 f2
  have heval : unstuf_pull_bits (unstuf_set_count
      (unstuf_add_bits ⟨prev, 0, 0, 0⟩ sc.1 sc.2) n)
      = ((pullLoop sb (sb ^^^ (sb >>> 1)) 0 sc.2 n).1,
         ⟨sb, (pullLoop sb (sb ^^^ (sb >>> 1)) 0 sc.2 n).2.2.1,
          (pullLoop sb (sb ^^^ (sb >>> 1)) 0 sc.2 n).2.1,
          (pullLoop sb (sb ^^^ (sb >>> 1)) 0 sc.2 n).2.2.2⟩) := by
    simp only [unstuf_pull_bits, unstuf_set_count, unstuf_add_bits, ← hsbdef]
  rw [heval, hcnt]
  constructor
  · exact f1
  · show (pullLoop sb (sb ^^^ (sb >>> 1)) 0 sl.length n).2.1 = d
    rw [f2, Nat.zero_or, bitsVal_wordBits, Nat.mod_eq_of_lt hdlt]

theorem runInv_one : runInv 1 0 true 1 := by
  refine ⟨Nat.le_refl 1, by omega, ?_, ?_⟩
  · intro j hj
    have hj0 : j = 0 := by omega
    subst hj0
    decide
  · intro _
    decide

/-- `bs_push` updates `prev_stuffed` exactly as one `bsRun` step does. -/
theorem bs_push_prev (bs : BitStuffer) (data count : Nat) :
    (bs_push bs data count).prev_stuffed = (bsRun bs.prev_stuffed [(data, count)]).2 := rfl

/-- C2: every frame produced by the TX encoder - `bs_push` of the 19-bit
header word, the `len` payload bytes and the 15-bit CRC, chained through
`prev_stuffed` from its initial value 1 - yields an emitted stuffed bit
stream with no run of six or more consecutive equal bits, including
across chunk boundaries. -/
theorem c2_stuffed_stream_no_six_run (addr len : Nat) (d1 : List Nat) (v : Bool)
    (ha : addr < 2 ^ 11) (hl : len ≤ 8) :
    ¬ (List.replicate 6 v <:+:
        (bsRun 1 ((((addr <<< 7) ||| len), 19)
          :: (((List.range len).map fun i => (d1.getD i 0, 8))
          ++ [((encodeSlot addr len d1).crc, 15)]))).1) := by
  have hcounts : ∀ c ∈ ((((addr <<< 7) ||| len), 19)
      :: (((List.range len).map fun i => (d1.getD i 0, 8))
        ++ [((encodeSlot addr len d1).crc, 15)])), c.2 ≤ 25 := by
    intro c hc
    simp only [List.mem_cons, List.mem_append, List.mem_map, List.mem_singleton] at hc
    rcases hc with rfl | ⟨i, _, rfl⟩ | rfl | h
    · simp
    · simp
    · simp
    · simp at h
  obtain ⟨hb1, _, _⟩ := bsRun_spec _ 1 true 1 (by norm_num [W32]) runInv_one hcounts
  rw [hb1]
  exact no_six_stuffList _ true 1 v (by omega) (by omega)

/-- Witness for C2 at a concrete frame. -/
theorem c2_stuffed_stream_no_six_run_witness :
    ¬ (List.replicate 6 true <:+:
        (bsRun 1 ((((0x123 <<< 7) ||| 1), 19)
          :: (((List.range 1).map fun i => (([(0xA5 : Nat)].getD i 0), 8))
          ++ [((encodeSlot 0x123 1 [0xA5]).crc, 15)]))).1) :=
  c2_stuffed_stream_no_six_run 0x123 1 [0xA5] true (by norm_num) (by norm_num)

/-- C3 counterexample: for the one-bit string `0` (`bits = 0`, `n = 1`),
stuffing with `bitstuff` and unstuffing the result through a fresh
unstuffer (`unstuf_add_bits`, `unstuf_set_count 1`, `unstuf_pull_bits`)
does not return the input bits: the pull stops with a six-low stuff
error (return -2) and the field incomplete. -/
theorem c3_counterexample :
    (unstuf_pull_bits (unstuf_set_count
        (unstuf_add_bits ⟨0, 0, 0, 0⟩ (bitstuff 0 1).1 (bitstuff 0 1).2) 1)).1 = -2
    ∧ (unstuf_pull_bits (unstuf_set_count
        (unstuf_add_bits ⟨0, 0, 0, 0⟩ (bitstuff 0 1).1 (bitstuff 0 1).2) 1)).2.count_unstuff
      = 1 := by
  have h1 : bitstuff 0 1 = (1, 2) := by simp [bitstuff, bitstuffLoop, W32]
  rw [h1]
  decide

/-- Witness for the amended C3 round-trip at a concrete input. -/
theorem c3_stuff_unstuff_roundtrip_witness :
    (unstuf_pull_bits (unstuf_set_count
        (unstuf_add_bits ⟨1, 0, 0, 0⟩
          (bitstuff (((1 <<< 8) ||| (0xA5 &&& ((1 <<< 8) - 1))) % W32) 8).1
          (bitstuff (((1 <<< 8) ||| (0xA5 &&& ((1 <<< 8) - 1))) % W32) 8).2) 8)).1 = 0
    ∧ (unstuf_pull_bits (unstuf_set_count
        (unstuf_add_bits ⟨1, 0, 0, 0⟩
          (bitstuff (((1 <<< 8) ||| (0xA5 &&& ((1 <<< 8) - 1))) % W32) 8).1
          (bitstuff (((1 <<< 8) ||| (0xA5 &&& ((1 <<< 8) - 1))) % W32) 8).2)
        8)).2.unstuffed_bits = 0xA5 &&& ((1 <<< 8) - 1) :=
  c3_stuff_unstuff_roundtrip 0xA5 8 1 true 1 (by omega) (by norm_num [W32]) runInv_one

end Can2040
